import Mathlib

/-!
Verification of the recursive archive-extraction and file-organization
subsystem of goblintools (src/goblintools/file_handling.py).

The filesystem is shallowly embedded as a finite tree of named entries.
A regular file carries a byte size and a flag saying whether os.remove
on it succeeds (false models a permission error on deletion).  A file
whose bytes are in a format the codec library recognizes as an archive
is modelled by the constructor Ent.afile, which additionally carries a
flag saying whether the codec decode of this file succeeds and the
entries the decode would produce.

External collaborators are modelled as follows:
- patoolib.is_archive probes by extension or signature; it is modelled
  as true exactly on files with archive content (Ent.afile) and false
  on plain files, directories and missing paths;
- the codec decode (zipfile/rarfile/patoolib) of an archive file
  writes its payload into the destination directory, overwriting
  same-named files and merging same-named directories, and fails
  cleanly (nothing written) when the ok flag is false;
- os.remove raises on a directory path and on a file whose removable
  flag is false; other filesystem primitives do not fail.
-/

namespace Goblintools

/-- A path: a list of name components relative to the model root. -/
abbrev Path := List String

/-- A directory entry: a plain regular file (name, removable flag,
size), a regular file in an archive format (name, removable flag,
size, decode outcome, decoded entries), or a subdirectory. -/
inductive Ent : Type where
  | file (name : String) (rem : Bool) (size : Nat)
  | afile (name : String) (rem : Bool) (size : Nat) (ok : Bool) (payload : List Ent)
  | dir (name : String) (children : List Ent)
  deriving Repr

/-- The filesystem: the children of the model root directory. -/
abbrev FS := List Ent

/-- Name of a directory entry. -/
def Ent.name : Ent → String
  | .file n _ _ => n
  | .afile n _ _ _ _ => n
  | .dir n _ => n

/-- Whether an entry is a directory. -/
def Ent.isDir : Ent → Bool
  | .dir _ _ => true
  | _ => false

/-- Look up the entry at a path (each component resolved by the first
name match, as os.path resolution sees a real directory where names
are unique). -/
def lookupEnt (es : List Ent) : Path → Option Ent
  | [] => none
  | [n] => es.find? (fun e => e.name = n)
  | n :: rest =>
    match es.find? (fun e => e.name = n) with
    | some (.dir _ cs) => lookupEnt cs rest
    | _ => none

/-- The children of the directory at a path (some es for the root path). -/
def childrenAt (es : List Ent) : Path → Option (List Ent)
  | [] => some es
  | n :: rest =>
    match es.find? (fun e => e.name = n) with
    | some (.dir _ cs) => childrenAt cs rest
    | _ => none

/-- Rewrite the first entry of the given name, leaving the rest alone. -/
def applyFirst (n : String) (g : Ent → Ent) : List Ent → List Ent
  | [] => []
  | e :: tl => if e.name = n then g e :: tl else e :: applyFirst n g tl

/-- Apply f to the children of the (first) directory reached along the
path; identity when the path does not lead to a directory. -/
def updateAt (p : Path) (f : List Ent → List Ent) : List Ent → List Ent :=
  match p with
  | [] => f
  | n :: rest => applyFirst n (fun e =>
      match e with
      | Ent.dir m cs => Ent.dir m (updateAt rest f cs)
      | e => e)

/-- os.path.exists. -/
def existsPath (fs : FS) (p : Path) : Bool :=
  match p with
  | [] => true
  | _ => (lookupEnt fs p).isSome

/-- Remove every entry of the given name from a listing (names are
unique on a real filesystem, so at most one is removed). -/
def removeName (n : String) (es : List Ent) : List Ent :=
  es.filter (fun e => ¬ e.name = n)

/-- os.remove / os.rmdir of the entry at a nonempty path. -/
def removePath (fs : FS) (p : Path) : FS :=
  updateAt p.dropLast (removeName (p.getLastD "")) fs

/-- Replace the first same-named entry in place, or append. -/
def place1 (e : Ent) (es : List Ent) : List Ent :=
  if es.any (fun x => x.name = e.name) then applyFirst e.name (fun _ => e) es
  else es ++ [e]

mutual
/-- One decoded entry as it lands next to a possibly existing
same-named entry: a directory landing on a directory is merged
recursively, anything else replaces what was there. -/
def mergeEnt (p : Ent) (old : Option Ent) : Ent :=
  match p, old with
  | Ent.dir n cs, some (Ent.dir _ cs0) => Ent.dir n (mergeEnts cs cs0)
  | _, _ => p

/-- Write a list of decoded entries into a directory listing, left to
right, as extractall materializes an archive listing on disk. -/
def mergeEnts (ps : List Ent) (es : List Ent) : List Ent :=
  match ps with
  | [] => es
  | p :: ps2 =>
    mergeEnts ps2 (place1 (mergeEnt p (es.find? (fun x => x.name = p.name))) es)
end

mutual
/-- Number of archive files in an entry, counting archives nested
inside archive payloads. -/
def entWeight : Ent → Nat
  | .file _ _ _ => 0
  | .afile _ _ _ _ payload => 1 + entsWeight payload
  | .dir _ cs => entsWeight cs

/-- Number of archive files in a list of entries. -/
def entsWeight : List Ent → Nat
  | [] => 0
  | e :: es => entWeight e + entsWeight es
end

mutual
/-- The shallow predicate q holds for an entry and, recursively, for
every entry nested below it (directory children and archive payloads). -/
def okEnt (q : Ent → Bool) : Ent → Bool
  | .file n rem sz => q (.file n rem sz)
  | .afile n rem sz ok ps => q (.afile n rem sz ok ps) && okEnts q ps
  | .dir n cs => q (.dir n cs) && okEnts q cs

/-- okEnt on every entry of a list. -/
def okEnts (q : Ent → Bool) : List Ent → Bool
  | [] => true
  | e :: es => okEnt q e && okEnts q es
end

mutual
/-- Sibling names are unique below an entry (directory children and
archive payloads), as they are on a real filesystem and in an archive
listing as materialized on disk. -/
def ndEnt : Ent → Bool
  | .file _ _ _ => true
  | .afile _ _ _ _ ps => ndEnts ps
  | .dir _ cs => ndEnts cs

/-- ndEnt everywhere below a listing, and no two entries of the
listing share a name. -/
def ndEnts : List Ent → Bool
  | [] => true
  | e :: es => (!es.any (fun x => x.name = e.name)) && ndEnt e && ndEnts es
end

/-- An archive file has nonzero size, decodes successfully and is
removable (shallow part; see goodEnts). -/
def goodSh : Ent → Bool
  | .afile _ rem sz ok _ => rem && (!sz.beq 0) && ok
  | _ => true

/-- Every archive file at any depth (directory or payload nesting) has
nonzero size, decodes successfully and is removable: the hypotheses of
a run in which every decode the code attempts succeeds. -/
def goodEnts (es : List Ent) : Bool := okEnts goodSh es

/-- os.remove succeeds on a file (shallow part; see removableEnts). -/
def removableSh : Ent → Bool
  | .file _ rem _ => rem
  | .afile _ rem _ _ _ => rem
  | .dir _ _ => true

/-- Every file at any depth (directory or payload nesting) can be
deleted. -/
def removableEnts (es : List Ent) : Bool := okEnts removableSh es

mutual
/-- Depth-first search for an archive file below an entry, returning
its path (components prefixed by pref). -/
def findArchEnt (pref : Path) : Ent → Option Path
  | .file _ _ _ => none
  | .afile n _ _ _ _ => some (pref ++ [n])
  | .dir n cs => findArchEnts (pref ++ [n]) cs

/-- Depth-first search for an archive file in a list of entries. -/
def findArchEnts (pref : Path) : List Ent → Option Path
  | [] => none
  | e :: es =>
    match findArchEnt pref e with
    | some r => some r
    | none => findArchEnts pref es
end

/-- First archive file in the subtree rooted at dest, if any
(the rescanning walk of extract_files_recursive). -/
def findArchUnder (fs : FS) (dest : Path) : Option Path :=
  match childrenAt fs dest with
  | none => none
  | some cs => findArchEnts dest cs

/-- The destination subtree contains no archive file. -/
def noArchUnder (fs : FS) (dest : Path) : Bool :=
  (findArchUnder fs dest).isNone

/-- FileValidator.is_empty: os.path.getsize(p) == 0, with stat errors
(missing path) reported as false; a directory has nonzero size. -/
def is_empty (fs : FS) (p : Path) : Bool :=
  match lookupEnt fs p with
  | some (.file _ _ sz) => sz.beq 0
  | some (.afile _ _ sz _ _) => sz.beq 0
  | some (.dir _ _) => false
  | none => false

/-- FileValidator.is_archive: patoolib.is_archive, modelled as true
exactly on files with archive content. -/
def is_archive (fs : FS) (p : Path) : Bool :=
  match lookupEnt fs p with
  | some (.afile _ _ _ _ _) => true
  | _ => false

/-- ArchiveHandler.extract.  Returns (outcome, filesystem); outcome
none models an exception escaping the function (the only operation the
try/except structure does not contain is the os.remove inside the
except block: a deletion that fails inside the try block is retried
there on the still-existing path and the second failure propagates).
An empty input returns false without touching the file.  A successful
decode writes the payload into the destination directory and then
deletes the input.  A failed decode (corrupt archive, or a file no
handler can decode) writes nothing, deletes the input and returns
false.  A missing input fails the decode, is seen as already gone by
the except block, and yields false without a deletion. -/
def extract (fs : FS) (p dest : Path) : Option Bool × FS :=
  if is_empty fs p then (some false, fs)
  else
    match lookupEnt fs p with
    | none => (some false, fs)
    | some (.dir _ _) => (none, fs)
    | some (.file _ rem _) =>
      if rem then (some false, removePath fs p) else (none, fs)
    | some (.afile _ rem _ ok payload) =>
      if ok then
        let fs1 := updateAt dest (mergeEnts payload) fs
        if rem then (some true, removePath fs1 p) else (none, fs1)
      else
        if rem then (some false, removePath fs p) else (none, fs)

/-- The walk over the destination subtree after a successful
extraction: every archive file found is run through the body of
extract_files_recursive (existence and archive probes, then extract,
then a walk of its own containing directory) — the lemma
rescan_step_efr below restates each step as a call of
extract_files_recursive itself.  The interleaved os.walk of the code
is modelled as a worklist that repeatedly picks the first archive file
remaining in the subtree; this reaches the same final state as the
code whenever every archive file it meets has nonzero size (each
processed archive is deleted by extract, so neither traversal revisits
a file).  fuel bounds the model only: every theorem below supplies
enough fuel for the result to agree with the unbounded recursion of
the code. -/
def rescan : Nat → FS → Path → Option Unit × FS
  | 0, fs, _ => (some (), fs)
  | fuel + 1, fs, dest =>
    match findArchUnder fs dest with
    | none => (some (), fs)
    | some p =>
      if ¬ existsPath fs p then rescan fuel fs dest
      else if ¬ is_archive fs p then rescan fuel fs dest
      else
        match extract fs p p.dropLast with
        | (none, fs1) => (none, fs1)
        | (some false, fs1) => rescan fuel fs1 dest
        | (some true, fs1) =>
          match rescan fuel fs1 p.dropLast with
          | (none, fs2) => (none, fs2)
          | (some _, fs2) => rescan fuel fs2 dest

/-- FileManager.extract_files_recursive: probe the input (missing or
non-archive inputs are left untouched and report false), extract it
into the destination, then recursively consume every archive file the
walk finds in the destination subtree. -/
def extract_files_recursive (fuel : Nat) (fs : FS) (p dest : Path) :
    Option Bool × FS :=
  if ¬ existsPath fs p then (some false, fs)
  else if ¬ is_archive fs p then (some false, fs)
  else
    match extract fs p dest with
    | (none, fs1) => (none, fs1)
    | (some false, fs1) => (some false, fs1)
    | (some true, fs1) =>
      match rescan fuel fs1 dest with
      | (none, fs2) => (none, fs2)
      | (some _, fs2) => (some true, fs2)

/-- FileManager.batch_extract, job by job: the thread pool runs every
job (one result slot per input path, in input order); a slot is none
when that job raised.  The filesystem is threaded through the jobs in
submission order. -/
def batchRun (fuel : Nat) (fs : FS) (paths : List Path) (dest : Path) :
    List (Option Bool) × FS :=
  match paths with
  | [] => ([], fs)
  | p :: ps =>
    let r := extract_files_recursive fuel fs p dest
    let rs := batchRun fuel r.2 ps dest
    (r.1 :: rs.1, rs.2)

/-- Collect an all-or-nothing result list: list(executor.map ...)
re-raises the first job exception, so the caller receives a list of
booleans only when no job raised. -/
def allSome : List (Option Bool) → Option (List Bool)
  | [] => some []
  | none :: _ => none
  | some b :: rs => (allSome rs).map (fun l => b :: l)

/-- FileManager.batch_extract as seen by the caller: none models an
exception escaping to the caller. -/
def batch_extract (fuel : Nat) (fs : FS) (paths : List Path) (dest : Path) :
    Option (List Bool) × FS :=
  let r := batchRun fuel fs paths dest
  (allSome r.1, r.2)

/-- os.path.splitext restricted to a basename (the code applies it to
the full destination string, but the split point is always inside the
basename, which is the last path component of our model): split at the
last dot provided some earlier character of the basename is not a dot. -/
def splitextName (s : String) : String × String :=
  match s.data.reverse.span (fun c => ¬ c = '.') with
  | (_, []) => (s, "")
  | (extR, _ :: before) =>
    if before.any (fun c => ¬ c = '.') then
      (String.mk before.reverse, String.mk ('.' :: extR.reverse))
    else (s, "")

/-- pathlib PurePath stem and suffix of a basename: the suffix is the
part from the last dot on, provided that dot is neither the first nor
the last character. -/
def psplit (s : String) : String × String :=
  match s.data.reverse.span (fun c => ¬ c = '.') with
  | (_, []) => (s, "")
  | (extR, _ :: before) =>
    if before.isEmpty || extR.isEmpty then (s, "")
    else (String.mk before.reverse, String.mk ('.' :: extR.reverse))

/-- pathlib stem of a basename. -/
def pstem (s : String) : String := (psplit s).1

/-- pathlib suffix of a basename. -/
def psuffix (s : String) : String := (psplit s).2

/-- str.lower applied to an extension, character by character (the
extensions the code compares are ASCII). -/
def strLower (s : String) : String := String.mk (s.data.map Char.toLower)

mutual
/-- Total number of entries below and including an entry. -/
def entCount : Ent → Nat
  | .file _ _ _ => 1
  | .afile _ _ _ _ _ => 1
  | .dir _ cs => 1 + entsCount cs

/-- Total number of entries in a tree; every existing nonempty path
resolves to one of them. -/
def entsCount : List Ent → Nat
  | [] => 0
  | e :: es => entCount e + entsCount es
end

/-- os.makedirs(p, exist_ok=True): create the missing directories along
the path; none when a regular file blocks the path (the call raises).
A failed call is modelled as leaving the tree unchanged (the code may
have created leading components before failing; no theorem below
depends on the state after a failed makedirs). -/
def makedirs : Path → FS → Option FS
  | [], fs => some fs
  | n :: rest, fs =>
    match fs.find? (fun e => e.name = n) with
    | some (Ent.dir _ cs) =>
      (makedirs rest cs).map (fun cs2 => applyFirst n (fun e =>
        match e with
        | Ent.dir m _ => Ent.dir m cs2
        | e => e) fs)
    | some _ => none
    | none => (makedirs rest []).map (fun cs2 => fs ++ [Ent.dir n cs2])

/-- The conflict loop of FileManager.move_file: starting from the
requested destination, while the current candidate exists replace it by
base_counter ext and increment the counter.  fuel only bounds the model
(the filesystem is finite, so the code loop always terminates; the
lemma findFree_total below shows the fuel passed by move_file is
enough). -/
def findFree (fs : FS) (dir : Path) (base ext : String) :
    Nat → Nat → Path → Option Path
  | fuel, k, cur =>
    if existsPath fs cur then
      match fuel with
      | 0 => none
      | fuel + 1 =>
        findFree fs dir base ext fuel (k + 1)
          (dir ++ [base ++ "_" ++ Nat.repr k ++ ext])
    else some cur

/-- Rename an entry (the effect of moving it to a new basename). -/
def Ent.rename : Ent → String → Ent
  | .file _ rem sz, n => .file n rem sz
  | .afile _ rem sz ok payload, n => .afile n rem sz ok payload
  | .dir _ cs, n => .dir n cs

/-- shutil.move to a fresh destination: remove the source entry and
place it, renamed, in the destination directory; none when the source
is missing (the call raises). -/
def shutilMove (fs : FS) (src dst : Path) : Option FS :=
  match lookupEnt fs src with
  | none => none
  | some e =>
    some (updateAt dst.dropLast
      (fun es => place1 (e.rename (dst.getLastD "")) es) (removePath fs src))

/-- FileManager.move_file. -/
def move_file (fs : FS) (src dst : Path) : Bool × FS :=
  if is_empty fs src then (false, fs)
  else
    match makedirs dst.dropLast fs with
    | none => (false, fs)
    | some fs1 =>
      let be := splitextName (dst.getLastD "")
      match findFree fs1 dst.dropLast be.1 be.2 (entsCount fs1 + 1) 1 dst with
      | none => (false, fs1)
      | some d =>
        match shutilMove fs1 src d with
        | none => (false, fs1)
        | some fs2 => (true, fs2)

/-- FileManager.delete_if_empty. -/
def delete_if_empty (fs : FS) (p : Path) : Bool × FS :=
  match lookupEnt fs p with
  | none => (true, fs)
  | some (.dir _ _) => (false, fs)
  | some (.file _ rem sz) =>
    if sz.beq 0 then
      if rem then (true, removePath fs p) else (false, fs)
    else (false, fs)
  | some (.afile _ rem sz _ _) =>
    if sz.beq 0 then
      if rem then (true, removePath fs p) else (false, fs)
    else (false, fs)

mutual
/-- The directories below an entry in os.walk top-down order. -/
def walkDirsEnt (pref : Path) : Ent → List Path
  | Ent.dir n cs => (pref ++ [n]) :: walkDirsEnts (pref ++ [n]) cs
  | _ => []

/-- The directories below a listing in os.walk top-down order, each
subtree listed in full before the next sibling directory. -/
def walkDirsEnts (pref : Path) : List Ent → List Path
  | [] => []
  | e :: es => walkDirsEnt pref e ++ walkDirsEnts pref es
end

/-- The file names in a directory listing, in order. -/
def fileNames (es : List Ent) : List String :=
  es.filterMap (fun e => match e with
    | .file n _ _ => some n
    | .afile n _ _ _ _ => some n
    | _ => none)

/-- One iteration of the os.walk loop of FileManager.move_files: for
every file of the visited directory, delete it if empty, otherwise move
it directly under the walked folder under its stem plus lower-cased
suffix; afterwards remove the directory if it is now empty (the rmdir
of the model root is skipped: os.rmdir on it raises and the exception
is caught and logged). -/
def processDir (folder : Path) (fs : FS) (d : Path) : FS :=
  match childrenAt fs d with
  | none => fs
  | some cs =>
    let fs1 := (fileNames cs).foldl (fun fs n =>
      let src := d ++ [n]
      let r := delete_if_empty fs src
      if r.1 then r.2
      else (move_file r.2 src (folder ++ [pstem n ++ strLower (psuffix n)])).2) fs
    match childrenAt fs1 d with
    | some [] => if d.isEmpty then fs1 else removePath fs1 d
    | _ => fs1

/-- FileManager.move_files.  The list of directories to visit is the
os.walk pre-order listing of the initial tree; this matches the lazy
walk of the code because the run never creates a directory, only
removes a directory at its own visit, and reads each directory's files
at its visit. -/
def move_files (fs : FS) (folder : Path) : FS :=
  if ¬ existsPath fs folder then fs
  else
    match childrenAt fs folder with
    | none => fs
    | some cs => (folder :: walkDirsEnts folder cs).foldl (processDir folder) fs

/-- The conflict-loop candidates of move_file: the requested
destination itself, then base_1 ext, base_2 ext, … beside it. -/
def cand (dst : Path) (base ext : String) (k : Nat) : Path :=
  if k = 0 then dst else dst.dropLast ++ [base ++ "_" ++ Nat.repr k ++ ext]

/-- Numeric value of a decimal digit character. -/
def dval (c : Char) : Nat := c.toNat - 48

/-- Value of a decimal digit string, most significant digit first. -/
def decVal (ds : List Char) : Nat := ds.foldl (fun a c => a * 10 + dval c) 0

mutual
/-- Every nonempty path resolving below one entry placed under pref. -/
def pathsEnt (pref : Path) : Ent → List Path
  | .file n _ _ => [pref ++ [n]]
  | .afile n _ _ _ _ => [pref ++ [n]]
  | .dir n cs => (pref ++ [n]) :: pathsEnts (pref ++ [n]) cs

/-- Every nonempty path resolving in a listing placed under pref. -/
def pathsEnts (pref : Path) : List Ent → List Path
  | [] => []
  | e :: es => pathsEnt pref e ++ pathsEnts pref es
end

/-! ### List-level lemmas -/

theorem name_rename (e : Ent) (n : String) : (e.rename n).name = n := by
  cases e <;> rfl

theorem removeName_cons (n : String) (e : Ent) (tl : List Ent) :
    removeName n (e :: tl) =
      if e.name = n then removeName n tl else e :: removeName n tl := by
  by_cases h : e.name = n <;> simp [removeName, h]

theorem find?_applyFirst_self (n : String) (g : Ent → Ent) (es : List Ent)
    (hg : ∀ e, e.name = n → (g e).name = n) :
    (applyFirst n g es).find? (fun e => e.name = n) =
      (es.find? (fun e => e.name = n)).map g := by
  induction es with
  | nil => rfl
  | cons e tl ih =>
    simp only [applyFirst]
    by_cases h : e.name = n
    · rw [if_pos h, List.find?_cons_of_pos _ (by simp [hg e h]),
        List.find?_cons_of_pos _ (by simp [h])]
      rfl
    · rw [if_neg h, List.find?_cons_of_neg _ (by simp [h]),
        List.find?_cons_of_neg _ (by simp [h])]
      exact ih

theorem find?_applyFirst_ne (n m : String) (g : Ent → Ent) (es : List Ent)
    (hg : ∀ e, e.name = n → (g e).name = n) (hnm : ¬ m = n) :
    (applyFirst n g es).find? (fun e => e.name = m) =
      es.find? (fun e => e.name = m) := by
  induction es with
  | nil => rfl
  | cons e tl ih =>
    simp only [applyFirst]
    by_cases h : e.name = n
    · have hm : ¬ e.name = m := fun hc => hnm (hc ▸ h ▸ rfl)
      rw [if_pos h, List.find?_cons_of_neg _ (by simp [hg e h]; exact fun hc => hnm hc.symm),
        List.find?_cons_of_neg _ (by simpa using hm)]
    · by_cases h2 : e.name = m
      · rw [if_neg h, List.find?_cons_of_pos _ (by simp [h2]),
          List.find?_cons_of_pos _ (by simp [h2])]
      · rw [if_neg h, List.find?_cons_of_neg _ (by simpa using h2),
          List.find?_cons_of_neg _ (by simpa using h2)]
        exact ih

theorem find?_removeName_self (n : String) (es : List Ent) :
    (removeName n es).find? (fun e => e.name = n) = none := by
  induction es with
  | nil => rfl
  | cons e tl ih =>
    rw [removeName_cons]
    by_cases h : e.name = n
    · rw [if_pos h]; exact ih
    · rw [if_neg h, List.find?_cons_of_neg _ (by simpa using h)]; exact ih

theorem find?_removeName_ne (n m : String) (es : List Ent) (hnm : ¬ m = n) :
    (removeName n es).find? (fun e => e.name = m) =
      es.find? (fun e => e.name = m) := by
  induction es with
  | nil => rfl
  | cons e tl ih =>
    rw [removeName_cons]
    by_cases h : e.name = n
    · have hm : ¬ e.name = m := fun hc => hnm (hc ▸ h ▸ rfl)
      rw [if_pos h, List.find?_cons_of_neg _ (by simpa using hm)]
      exact ih
    · by_cases h2 : e.name = m
      · rw [if_neg h, List.find?_cons_of_pos _ (by simp [h2]),
          List.find?_cons_of_pos _ (by simp [h2])]
      · rw [if_neg h, List.find?_cons_of_neg _ (by simpa using h2),
          List.find?_cons_of_neg _ (by simpa using h2)]
        exact ih

theorem any_removeName_ne (n m : String) (es : List Ent) (hnm : ¬ m = n) :
    (removeName n es).any (fun e => e.name = m) =
      es.any (fun e => e.name = m) := by
  induction es with
  | nil => rfl
  | cons e tl ih =>
    rw [removeName_cons]
    by_cases h : e.name = n
    · have hm : ¬ e.name = m := fun hc => hnm (hc ▸ h ▸ rfl)
      rw [if_pos h, ih, List.any_cons]
      simp [hm]
    · rw [if_neg h, List.any_cons, List.any_cons, ih]

theorem find?_some_any {es : List Ent} {n : String} {x : Ent}
    (h : es.find? (fun e => e.name = n) = some x) :
    es.any (fun e => e.name = n) = true := by
  induction es with
  | nil => simp at h
  | cons e tl ih =>
    by_cases he : e.name = n
    · simp [List.any_cons, he]
    · rw [List.find?_cons_of_neg _ (by simpa using he)] at h
      simp [List.any_cons, he, ih h]

theorem find?_none_any {es : List Ent} {n : String}
    (h : es.find? (fun e => e.name = n) = none) :
    es.any (fun e => e.name = n) = false := by
  rw [List.find?_eq_none] at h
  rw [List.any_eq_false]
  intro x hx
  simpa using h x hx

theorem mergeEnt_none (p : Ent) : mergeEnt p none = p := by
  cases p <;> rfl

theorem mergeEnt_name (p : Ent) (o : Option Ent) :
    (mergeEnt p o).name = p.name := by
  cases p <;> cases o with
  | none => rfl
  | some x => cases x <;> rfl

theorem find?_place1_self (e : Ent) (es : List Ent) :
    (place1 e es).find? (fun x => x.name = e.name) = some e := by
  unfold place1
  by_cases h : es.any (fun x => x.name = e.name)
  · rw [if_pos h, find?_applyFirst_self _ _ _ (fun x _ => rfl)]
    cases hf : es.find? (fun x => x.name = e.name) with
    | none => rw [find?_none_any hf] at h; exact absurd h (by simp)
    | some y => rfl
  · rw [if_neg h, List.find?_append]
    cases hf : es.find? (fun x => x.name = e.name) with
    | none => simp [List.find?_cons]
    | some y => rw [find?_some_any hf] at h; exact absurd rfl h

theorem find?_place1_ne (e : Ent) (es : List Ent) (m : String)
    (hm : ¬ m = e.name) :
    (place1 e es).find? (fun x => x.name = m) =
      es.find? (fun x => x.name = m) := by
  unfold place1
  by_cases h : es.any (fun x => x.name = e.name)
  · rw [if_pos h, find?_applyFirst_ne _ _ _ _ (fun x _ => rfl) hm]
  · rw [if_neg h, List.find?_append]
    cases hf : es.find? (fun x => x.name = m) with
    | none =>
      have : ¬ e.name = m := fun hc => hm hc.symm
      simp [List.find?_cons, this]
    | some y => rfl

theorem entsWeight_append (as bs : List Ent) :
    entsWeight (as ++ bs) = entsWeight as + entsWeight bs := by
  induction as with
  | nil => simp [entsWeight]
  | cons a tl ih => simp [entsWeight, ih]; omega

theorem entsWeight_filter_le (f : Ent → Bool) (es : List Ent) :
    entsWeight (es.filter f) ≤ entsWeight es := by
  induction es with
  | nil => simp [entsWeight]
  | cons e tl ih =>
    rw [List.filter_cons]
    by_cases h : f e
    · rw [if_pos h]; simp [entsWeight]; omega
    · rw [if_neg h]; simp [entsWeight]; omega

theorem entsWeight_applyFirst {es : List Ent} {n : String} {x : Ent}
    (g : Ent → Ent) (h : es.find? (fun v => v.name = n) = some x) :
    entsWeight (applyFirst n g es) + entWeight x =
      entWeight (g x) + entsWeight es := by
  induction es with
  | nil => simp at h
  | cons v tl ih =>
    by_cases hv : v.name = n
    · rw [List.find?_cons_of_pos _ (by simpa using hv)] at h
      cases h
      simp [applyFirst, hv, entsWeight]; omega
    · rw [List.find?_cons_of_neg _ (by simpa using hv)] at h
      simp only [applyFirst, if_neg hv, entsWeight]
      have := ih h
      omega

theorem entsWeight_place1_found {es : List Ent} {x e : Ent}
    (h : es.find? (fun v => v.name = e.name) = some x) :
    entsWeight (place1 e es) + entWeight x = entWeight e + entsWeight es := by
  unfold place1
  rw [if_pos (find?_some_any h)]
  exact entsWeight_applyFirst _ h

theorem entsWeight_place1_new {es : List Ent} {e : Ent}
    (h : es.find? (fun v => v.name = e.name) = none) :
    entsWeight (place1 e es) = entWeight e + entsWeight es := by
  unfold place1
  rw [if_neg (by rw [find?_none_any h]; exact Bool.false_ne_true)]
  rw [entsWeight_append]
  simp [entsWeight]; omega

theorem entsWeight_removeName_found {es : List Ent} {n : String} {x : Ent}
    (h : es.find? (fun v => v.name = n) = some x) :
    entsWeight (removeName n es) + entWeight x ≤ entsWeight es := by
  induction es with
  | nil => simp at h
  | cons v tl ih =>
    rw [removeName_cons]
    by_cases hv : v.name = n
    · rw [List.find?_cons_of_pos _ (by simpa using hv)] at h
      cases h
      rw [if_pos hv]
      have := entsWeight_filter_le (fun e => ¬ e.name = n) tl
      simp [entsWeight]
      unfold removeName at *
      omega
    · rw [List.find?_cons_of_neg _ (by simpa using hv)] at h
      rw [if_neg hv]
      have := ih h
      simp [entsWeight] at *
      omega

mutual
theorem entWeight_mergeEnt (p : Ent) (o : Option Ent) :
    entWeight (mergeEnt p o) ≤ entWeight p + o.elim 0 entWeight := by
  cases p with
  | file n rem sz => cases o with
    | none => simp [mergeEnt]
    | some x => cases x <;> simp [mergeEnt]
  | afile n rem sz ok ps => cases o with
    | none => simp [mergeEnt]
    | some x => cases x <;> simp [mergeEnt]
  | dir n cs => cases o with
    | none => simp [mergeEnt]
    | some x =>
      cases x with
      | file m rem sz => simp [mergeEnt]
      | afile m rem sz ok ps => simp [mergeEnt]
      | dir m cs0 =>
        have := entsWeight_mergeEnts cs cs0
        simp [mergeEnt, entWeight]
        omega
termination_by sizeOf p

theorem entsWeight_mergeEnts (ps es : List Ent) :
    entsWeight (mergeEnts ps es) ≤ entsWeight ps + entsWeight es := by
  cases ps with
  | nil => simp [mergeEnts, entsWeight]
  | cons p ps2 =>
    rw [mergeEnts]
    have hm := entWeight_mergeEnt p (es.find? (fun x => x.name = p.name))
    have hrec := entsWeight_mergeEnts ps2
      (place1 (mergeEnt p (es.find? (fun x => x.name = p.name))) es)
    cases hf : es.find? (fun x => x.name = p.name) with
    | none =>
      rw [hf] at hm hrec
      have hp := entsWeight_place1_new (e := mergeEnt p none)
        (by rw [mergeEnt_name, hf])
      simp [entsWeight] at *
      omega
    | some x =>
      rw [hf] at hm hrec
      have hp := entsWeight_place1_found (x := x)
        (e := mergeEnt p (some x)) (by rw [mergeEnt_name, hf])
      simp [entsWeight] at *
      omega
termination_by sizeOf ps
end

theorem removeName_applyFirst_self (n : String) (g : Ent → Ent) (es : List Ent)
    (hg : ∀ e, e.name = n → (g e).name = n) :
    removeName n (applyFirst n g es) = removeName n es := by
  induction es with
  | nil => rfl
  | cons e tl ih =>
    by_cases h : e.name = n
    · simp only [applyFirst, if_pos h]
      rw [removeName_cons, removeName_cons, if_pos (hg e h), if_pos h]
    · simp only [applyFirst, if_neg h]
      rw [removeName_cons, removeName_cons, if_neg h, if_neg h, ih]

theorem removeName_applyFirst_ne (n m : String) (g : Ent → Ent) (es : List Ent)
    (hg : ∀ e, e.name = m → (g e).name = m) (hnm : ¬ m = n) :
    removeName n (applyFirst m g es) = applyFirst m g (removeName n es) := by
  induction es with
  | nil => rfl
  | cons e tl ih =>
    by_cases h : e.name = m
    · have h2 : ¬ e.name = n := fun hc => hnm (h ▸ hc)
      have h3 : ¬ (g e).name = n := fun hc => hnm (hg e h ▸ hc)
      simp only [applyFirst, if_pos h]
      rw [removeName_cons, if_neg h3, removeName_cons, if_neg h2,
        applyFirst, if_pos h]
    · simp only [applyFirst, if_neg h]
      rw [removeName_cons]
      by_cases h2 : e.name = n
      · rw [if_pos h2, removeName_cons, if_pos h2, ih]
      · rw [if_neg h2, removeName_cons, if_neg h2, applyFirst, if_neg h, ih]

theorem removeName_place1_self (n : String) (e : Ent) (es : List Ent)
    (he : e.name = n) :
    removeName n (place1 e es) = removeName n es := by
  unfold place1
  by_cases h : es.any (fun x => x.name = e.name)
  · rw [if_pos h, he, removeName_applyFirst_self _ _ _ (fun x _ => he)]
  · rw [if_neg h]
    unfold removeName
    rw [List.filter_append]
    simp [he]

theorem removeName_place1_ne (n : String) (e : Ent) (es : List Ent)
    (he : ¬ e.name = n) :
    removeName n (place1 e es) = place1 e (removeName n es) := by
  unfold place1
  rw [any_removeName_ne _ _ _ (fun hc => he hc)]
  by_cases h : es.any (fun x => x.name = e.name)
  · rw [if_pos h, if_pos h,
      removeName_applyFirst_ne _ _ _ _ (fun x _ => rfl) (fun hc => he hc)]
  · rw [if_neg h, if_neg h]
    unfold removeName
    rw [List.filter_append]
    simp [he]

theorem removeName_mergeEnts (n : String) (ps es : List Ent) :
    removeName n (mergeEnts ps es) =
      mergeEnts (removeName n ps) (removeName n es) := by
  induction ps generalizing es with
  | nil => rfl
  | cons p ps2 ih =>
    rw [mergeEnts, removeName_cons]
    by_cases h : p.name = n
    · rw [if_pos h, ih,
        removeName_place1_self _ _ _ (by rw [mergeEnt_name]; exact h)]
    · rw [if_neg h, mergeEnts, ih,
        removeName_place1_ne _ _ _ (by rw [mergeEnt_name]; exact h),
        find?_removeName_ne _ _ _ h]

theorem consume_weight_lt {es ps : List Ent} {n : String} {rem sz ok}
    (h : es.find? (fun v => v.name = n) = some (.afile n rem sz ok ps)) :
    entsWeight (removeName n (mergeEnts ps es)) < entsWeight es := by
  rw [removeName_mergeEnts]
  have h1 := entsWeight_mergeEnts (removeName n ps) (removeName n es)
  have h2 := entsWeight_removeName_found h
  have h3 := entsWeight_filter_le (fun e => ¬ e.name = n) ps
  simp only [entWeight] at h2
  unfold removeName at *
  omega

/-! ### Path-level lemmas -/

theorem lookupEnt_cons₂ (es : List Ent) (n : String) (l : Path) (hl : l ≠ []) :
    lookupEnt es (n :: l) =
      match es.find? (fun e => e.name = n) with
      | some (.dir _ cs) => lookupEnt cs l
      | _ => none := by
  cases l with
  | nil => exact absurd rfl hl
  | cons m tl => rfl

theorem lookupEnt_append (fs : FS) (d q : Path) (hq : q ≠ []) :
    lookupEnt fs (d ++ q) =
      match childrenAt fs d with
      | some cs => lookupEnt cs q
      | none => none := by
  induction d generalizing fs with
  | nil => simp [childrenAt]
  | cons n d2 ih =>
    rw [List.cons_append, lookupEnt_cons₂ _ _ _ (by simp [hq]), childrenAt]
    cases hf : fs.find? (fun e => e.name = n) with
    | none => rfl
    | some x => cases x with
      | file _ _ _ => rfl
      | afile _ _ _ _ _ => rfl
      | dir _ cs => exact ih cs

theorem childrenAt_append (fs : FS) (d q : Path) :
    childrenAt fs (d ++ q) =
      match childrenAt fs d with
      | some cs => childrenAt cs q
      | none => none := by
  induction d generalizing fs with
  | nil => simp [childrenAt]
  | cons n d2 ih =>
    rw [List.cons_append, childrenAt, childrenAt]
    cases hf : fs.find? (fun e => e.name = n) with
    | none => rfl
    | some x => cases x with
      | file _ _ _ => rfl
      | afile _ _ _ _ _ => rfl
      | dir _ cs => exact ih cs

theorem entsWeight_updateAt (d : Path) (f : List Ent → List Ent) :
    ∀ (fs cs : FS), childrenAt fs d = some cs →
      entsWeight (updateAt d f fs) + entsWeight cs =
        entsWeight (f cs) + entsWeight fs := by
  induction d with
  | nil =>
    intro fs cs h
    simp only [childrenAt] at h
    cases h
    simp [updateAt]
  | cons n d2 ih =>
    intro fs cs h
    simp only [childrenAt] at h
    cases hf : fs.find? (fun e => e.name = n) with
    | none => rw [hf] at h; exact absurd h (by simp)
    | some x =>
      rw [hf] at h
      cases x with
      | file _ _ _ => exact absurd h (by simp)
      | afile _ _ _ _ _ => exact absurd h (by simp)
      | dir m cs0 =>
        have hx := entsWeight_applyFirst
          (fun e => match e with
            | Ent.dir m cs => Ent.dir m (updateAt d2 f cs)
            | e => e) hf
        have hrec := ih cs0 cs h
        simp only [updateAt]
        simp only [entWeight] at hx
        omega

/-- The children listing of a directory are kept by updateAt whenever
it reaches them through the same chain of first name matches. -/
theorem childrenAt_updateAt_self (d : Path) (f : List Ent → List Ent) :
    ∀ (fs cs : FS), childrenAt fs d = some cs →
      childrenAt (updateAt d f fs) d = some (f cs) := by
  induction d with
  | nil =>
    intro fs cs h
    simp only [childrenAt] at h ⊢
    cases h
    simp [updateAt]
  | cons n d2 ih =>
    intro fs cs h
    simp only [childrenAt] at h
    cases hf : fs.find? (fun e => e.name = n) with
    | none => rw [hf] at h; exact absurd h (by simp)
    | some x =>
      rw [hf] at h
      cases x with
      | file _ _ _ => exact absurd h (by simp)
      | afile _ _ _ _ _ => exact absurd h (by simp)
      | dir m cs0 =>
        simp only [updateAt, childrenAt]
        rw [find?_applyFirst_self _ _ _
          (fun e he => by cases e <;> simp [Ent.name] at he ⊢ <;> exact he), hf]
        exact ih cs0 cs h

theorem updateAt_updateAt (d : Path) (f g : List Ent → List Ent) :
    ∀ fs : FS, updateAt d f (updateAt d g fs) =
      updateAt d (fun cs => f (g cs)) fs := by
  induction d with
  | nil => intro fs; rfl
  | cons n d2 ih =>
    intro fs
    simp only [updateAt]
    have hcomp : ∀ es, applyFirst n (fun e => match e with
        | Ent.dir m cs => Ent.dir m (updateAt d2 f cs)
        | e => e)
        (applyFirst n (fun e => match e with
          | Ent.dir m cs => Ent.dir m (updateAt d2 g cs)
          | e => e) es) =
      applyFirst n (fun e => match e with
        | Ent.dir m cs => Ent.dir m (updateAt d2 (fun cs => f (g cs)) cs)
        | e => e) es := by
      intro es
      induction es with
      | nil => rfl
      | cons e tl ih2 =>
        by_cases he : e.name = n
        · have hgn : (match e with
              | Ent.dir m cs => Ent.dir m (updateAt d2 g cs)
              | e => e).name = n := by
            cases e <;> simpa [Ent.name] using he
          simp only [applyFirst, if_pos he, if_pos hgn]
          congr 1
          cases e <;> simp [ih]
        · have hgn : ¬ (match e with
              | Ent.dir m cs => Ent.dir m (updateAt d2 g cs)
              | e => e).name = n := by
            cases e <;> simpa [Ent.name] using he
          simp only [applyFirst, if_neg he, if_neg hgn]
          rw [ih2]
    exact hcomp fs

/-- Looking up inside the updated subtree reads through f. -/
theorem lookupEnt_updateAt_inside (d r : Path) (f : List Ent → List Ent)
    (fs cs : FS) (hc : childrenAt fs d = some cs) (hr : r ≠ []) :
    lookupEnt (updateAt d f fs) (d ++ r) = lookupEnt (f cs) r := by
  rw [lookupEnt_append _ _ _ hr, childrenAt_updateAt_self d f fs cs hc]

/-- A non-directory entry whose path is not below the updated
directory is untouched by updateAt. -/
theorem lookupEnt_updateAt_off (d : Path) (f : List Ent → List Ent) :
    ∀ (fs : FS) (q : Path) (e : Ent), lookupEnt fs q = some e →
      e.isDir = false → (∀ r, q ≠ d ++ r) →
      lookupEnt (updateAt d f fs) q = some e := by
  induction d with
  | nil => intro fs q e _ _ hq; exact absurd rfl (hq q)
  | cons n d2 ih =>
    intro fs q e he hd hq
    cases q with
    | nil => simp [lookupEnt] at he
    | cons m q2 =>
      have hpres : ∀ x : Ent, x.name = n → (match x with
          | Ent.dir mm cs => Ent.dir mm (updateAt d2 f cs)
          | x => x).name = n := by
        intro x hx; cases x <;> simpa [Ent.name] using hx
      by_cases hmn : m = n
      · subst hmn
        by_cases hq2 : q2 = []
        · subst hq2
          simp only [lookupEnt] at he
          simp only [updateAt, lookupEnt]
          rw [find?_applyFirst_self _ _ _ hpres, he]
          cases e with
          | file _ _ _ => rfl
          | afile _ _ _ _ _ => rfl
          | dir _ _ => simp [Ent.isDir] at hd
        · rw [lookupEnt_cons₂ _ _ _ hq2] at he
          simp only [updateAt]
          rw [lookupEnt_cons₂ _ _ _ hq2,
            find?_applyFirst_self _ _ _ hpres]
          cases hf : fs.find? (fun x => x.name = m) with
          | none => rw [hf] at he; simp at he
          | some x =>
            rw [hf] at he
            cases x with
            | file _ _ _ => simp at he
            | afile _ _ _ _ _ => simp at he
            | dir mm cs =>
              simp only [Option.map_some']
              exact ih cs q2 e he hd (fun r hr => hq r (by rw [hr]; rfl))
      · by_cases hq2 : q2 = []
        · subst hq2
          simp only [lookupEnt] at he
          simp only [updateAt, lookupEnt]
          rw [find?_applyFirst_ne _ _ _ _ hpres hmn]
          exact he
        · rw [lookupEnt_cons₂ _ _ _ hq2] at he
          simp only [updateAt]
          rw [lookupEnt_cons₂ _ _ _ hq2,
            find?_applyFirst_ne _ _ _ _ hpres hmn]
          exact he

/-- Deleting the entry at p removes it: nothing is found at p
afterwards. -/
theorem lookupEnt_removePath_self (fs : FS) (p : Path) (e : Ent)
    (he : lookupEnt fs p = some e) :
    lookupEnt (removePath fs p) p = none := by
  have hp : p ≠ [] := by intro h; rw [h] at he; simp [lookupEnt] at he
  have hsplit : p.dropLast ++ [p.getLastD ""] = p := by
    cases hp2 : p with
    | nil => exact absurd hp2 hp
    | cons a b =>
      rw [← hp2, List.getLastD_eq_getLast?, List.getLast?_eq_getLast _ hp,
        Option.getD_some, List.dropLast_append_getLast hp]
  have hc : ∃ cs, childrenAt fs p.dropLast = some cs := by
    rcases hcs : childrenAt fs p.dropLast with _ | cs
    · rw [← hsplit, lookupEnt_append _ _ _ (by simp), hcs] at he
      simp at he
    · exact ⟨cs, rfl⟩
  obtain ⟨cs, hcs⟩ := hc
  have hmain : lookupEnt (updateAt p.dropLast (removeName (p.getLastD "")) fs)
      (p.dropLast ++ [p.getLastD ""]) = none := by
    rw [lookupEnt_updateAt_inside _ _ _ _ _ hcs (by simp), lookupEnt,
      find?_removeName_self]
  rw [hsplit] at hmain
  exact hmain

/-! ### Invariant preservation -/

theorem okEnt_of_mem {q : Ent → Bool} {es : List Ent} {e : Ent}
    (hm : e ∈ es) (h : okEnts q es = true) : okEnt q e = true := by
  induction es with
  | nil => simp at hm
  | cons x tl ih =>
    simp only [okEnts, Bool.and_eq_true] at h
    rcases List.mem_cons.1 hm with h1 | h1
    · subst h1; exact h.1
    · exact ih h1 h.2

theorem okEnt_of_find? {q : Ent → Bool} {es : List Ent} {x : Ent}
    {p : Ent → Bool} (hf : es.find? p = some x) (h : okEnts q es = true) :
    okEnt q x = true :=
  okEnt_of_mem (List.mem_of_find?_eq_some hf) h

theorem okEnts_append {q : Ent → Bool} {as bs : List Ent}
    (ha : okEnts q as = true) (hb : okEnts q bs = true) :
    okEnts q (as ++ bs) = true := by
  induction as with
  | nil => simpa using hb
  | cons a tl ih =>
    simp only [okEnts, Bool.and_eq_true] at ha ⊢
    exact ⟨ha.1, ih ha.2⟩

theorem okEnts_filter {q : Ent → Bool} {es : List Ent} (f : Ent → Bool)
    (h : okEnts q es = true) : okEnts q (es.filter f) = true := by
  induction es with
  | nil => simpa using h
  | cons e tl ih =>
    simp only [okEnts, Bool.and_eq_true] at h
    rw [List.filter_cons]
    by_cases hf : f e
    · rw [if_pos hf]
      simp only [okEnts, Bool.and_eq_true]
      exact ⟨h.1, ih h.2⟩
    · rw [if_neg hf]
      exact ih h.2

theorem okEnts_applyFirst {q : Ent → Bool} {es : List Ent} {n : String}
    {g : Ent → Ent} (hg : ∀ e, okEnt q e = true → okEnt q (g e) = true)
    (h : okEnts q es = true) : okEnts q (applyFirst n g es) = true := by
  induction es with
  | nil => simpa using h
  | cons e tl ih =>
    simp only [okEnts, Bool.and_eq_true] at h
    by_cases he : e.name = n
    · simp only [applyFirst, if_pos he, okEnts, Bool.and_eq_true]
      exact ⟨hg e h.1, h.2⟩
    · simp only [applyFirst, if_neg he, okEnts, Bool.and_eq_true]
      exact ⟨h.1, ih h.2⟩

theorem okEnts_place1 {q : Ent → Bool} {es : List Ent} {e : Ent}
    (he : okEnt q e = true) (h : okEnts q es = true) :
    okEnts q (place1 e es) = true := by
  unfold place1
  by_cases hb : es.any (fun x => x.name = e.name)
  · rw [if_pos hb]
    exact okEnts_applyFirst (fun x _ => he) h
  · rw [if_neg hb]
    exact okEnts_append h (by simpa [okEnts] using he)

mutual
theorem okEnt_mergeEnt {q : Ent → Bool}
    (hqd : ∀ n cs, q (Ent.dir n cs) = true) (p : Ent) (o : Option Ent)
    (hp : okEnt q p = true) (ho : ∀ x, o = some x → okEnt q x = true) :
    okEnt q (mergeEnt p o) = true := by
  cases p with
  | file n rem sz =>
    cases o with
    | none => simpa [mergeEnt] using hp
    | some x => cases x <;> simpa [mergeEnt] using hp
  | afile n rem sz ok ps =>
    cases o with
    | none => simpa [mergeEnt] using hp
    | some x => cases x <;> simpa [mergeEnt] using hp
  | dir n cs =>
    cases o with
    | none => simpa [mergeEnt] using hp
    | some x =>
      cases x with
      | file m rem sz => simpa [mergeEnt] using hp
      | afile m rem sz ok ps => simpa [mergeEnt] using hp
      | dir m cs0 =>
        have h1 : okEnts q cs = true := by
          simp only [okEnt, Bool.and_eq_true] at hp
          exact hp.2
        have h2 : okEnts q cs0 = true := by
          have := ho (Ent.dir m cs0) rfl
          simp only [okEnt, Bool.and_eq_true] at this
          exact this.2
        have := okEnts_mergeEnts hqd cs cs0 h1 h2
        simp only [mergeEnt, okEnt, Bool.and_eq_true]
        exact ⟨hqd n (mergeEnts cs cs0), this⟩
termination_by sizeOf p

theorem okEnts_mergeEnts {q : Ent → Bool}
    (hqd : ∀ n cs, q (Ent.dir n cs) = true) (ps es : List Ent)
    (hp : okEnts q ps = true) (he : okEnts q es = true) :
    okEnts q (mergeEnts ps es) = true := by
  cases ps with
  | nil => simpa [mergeEnts] using he
  | cons p ps2 =>
    rw [mergeEnts]
    simp only [okEnts, Bool.and_eq_true] at hp
    refine okEnts_mergeEnts hqd ps2 _ hp.2 ?_
    refine okEnts_place1 ?_ he
    refine okEnt_mergeEnt hqd p _ hp.1 ?_
    intro x hx
    exact okEnt_of_find? hx he
termination_by sizeOf ps
end

theorem okEnts_updateAt {q : Ent → Bool}
    (hqd : ∀ n cs, q (Ent.dir n cs) = true) (d : Path)
    (f : List Ent → List Ent)
    (hf : ∀ cs, okEnts q cs = true → okEnts q (f cs) = true) :
    ∀ fs : FS, okEnts q fs = true → okEnts q (updateAt d f fs) = true := by
  induction d with
  | nil => intro fs h; exact hf fs h
  | cons n d2 ih =>
    intro fs h
    simp only [updateAt]
    refine okEnts_applyFirst ?_ h
    intro e he
    cases e with
    | file _ _ _ => exact he
    | afile _ _ _ _ _ => exact he
    | dir m cs =>
      simp only [okEnt, Bool.and_eq_true] at he ⊢
      exact ⟨hqd m _, ih cs he.2⟩

theorem okEnt_of_lookup {q : Ent → Bool} {e : Ent} :
    ∀ (fs : FS) (p : Path), lookupEnt fs p = some e →
      okEnts q fs = true → okEnt q e = true := by
  intro fs p
  induction p generalizing fs with
  | nil => intro h; simp [lookupEnt] at h
  | cons n p2 ih =>
    intro h hok
    by_cases hp2 : p2 = []
    · subst hp2
      simp only [lookupEnt] at h
      exact okEnt_of_find? h hok
    · rw [lookupEnt_cons₂ _ _ _ hp2] at h
      cases hf : fs.find? (fun x => x.name = n) with
      | none => rw [hf] at h; simp at h
      | some x =>
        rw [hf] at h
        cases x with
        | file _ _ _ => simp at h
        | afile _ _ _ _ _ => simp at h
        | dir m cs =>
          have hx := okEnt_of_find? hf hok
          simp only [okEnt, Bool.and_eq_true] at hx
          exact ih cs h hx.2

theorem any_filter_imp {es : List Ent} {f : Ent → Bool} {p : Ent → Bool}
    (h : (es.filter f).any p = true) : es.any p = true := by
  rw [List.any_eq_true] at h ⊢
  obtain ⟨x, hx, hp⟩ := h
  exact ⟨x, List.mem_of_mem_filter hx, hp⟩

theorem ndEnt_of_mem {es : List Ent} {e : Ent}
    (hm : e ∈ es) (h : ndEnts es = true) : ndEnt e = true := by
  induction es with
  | nil => simp at hm
  | cons x tl ih =>
    simp only [ndEnts, Bool.and_eq_true] at h
    rcases List.mem_cons.1 hm with h1 | h1
    · subst h1; exact h.1.2
    · exact ih h1 h.2

theorem ndEnts_filter {es : List Ent} (f : Ent → Bool)
    (h : ndEnts es = true) : ndEnts (es.filter f) = true := by
  induction es with
  | nil => simpa using h
  | cons e tl ih =>
    simp only [ndEnts, Bool.and_eq_true] at h
    rw [List.filter_cons]
    by_cases hf : f e
    · rw [if_pos hf]
      simp only [ndEnts, Bool.and_eq_true]
      refine ⟨⟨?_, h.1.2⟩, ih h.2⟩
      cases hany : (tl.filter f).any (fun x => x.name = e.name) with
      | false => rfl
      | true =>
        have := any_filter_imp hany
        rw [this] at h
        simpa using h.1.1
    · rw [if_neg hf]
      exact ih h.2

theorem any_applyFirst {es : List Ent} {n : String} {g : Ent → Ent}
    (hg : ∀ e, e.name = n → (g e).name = n) (m : String) :
    (applyFirst n g es).any (fun x => x.name = m) =
      es.any (fun x => x.name = m) := by
  induction es with
  | nil => rfl
  | cons e tl ih =>
    simp only [applyFirst]
    by_cases he : e.name = n
    · rw [if_pos he]
      simp only [List.any_cons, hg e he, he]
    · rw [if_neg he]
      simp only [List.any_cons, ih]

theorem ndEnts_applyFirst {es : List Ent} {n : String} {g : Ent → Ent}
    (hg : ∀ e, e.name = n → (g e).name = n)
    (hg2 : ∀ e, ndEnt e = true → ndEnt (g e) = true)
    (h : ndEnts es = true) : ndEnts (applyFirst n g es) = true := by
  induction es with
  | nil => simpa using h
  | cons e tl ih =>
    simp only [ndEnts, Bool.and_eq_true] at h
    by_cases he : e.name = n
    · simp only [applyFirst, if_pos he, ndEnts, Bool.and_eq_true]
      refine ⟨⟨?_, hg2 e h.1.2⟩, h.2⟩
      rw [hg e he, ← he]
      exact h.1.1
    · simp only [applyFirst, if_neg he, ndEnts, Bool.and_eq_true]
      refine ⟨⟨?_, h.1.2⟩, ih h.2⟩
      rw [any_applyFirst hg]
      exact h.1.1

theorem ndEnts_append_one {es : List Ent} {e : Ent}
    (hnot : es.any (fun x => x.name = e.name) = false)
    (he : ndEnt e = true) (h : ndEnts es = true) :
    ndEnts (es ++ [e]) = true := by
  induction es with
  | nil => simp [ndEnts, he]
  | cons x tl ih =>
    simp only [ndEnts, Bool.and_eq_true] at h
    simp only [List.any_cons, Bool.or_eq_false_iff] at hnot
    simp only [List.cons_append, ndEnts, Bool.and_eq_true]
    refine ⟨⟨?_, h.1.2⟩, ih hnot.2 h.2⟩
    have hxe : ¬ e.name = x.name := by
      simp only [decide_eq_false_iff_not] at hnot
      exact fun hc => hnot.1 (hc ▸ rfl)
    have htl : (tl.any fun y => y.name = x.name) = false := by
      simpa using h.1.1
    simp [List.any_append, htl, hxe]

theorem ndEnts_place1 {es : List Ent} {e : Ent}
    (he : ndEnt e = true) (h : ndEnts es = true) :
    ndEnts (place1 e es) = true := by
  unfold place1
  by_cases hb : es.any (fun x => x.name = e.name)
  · rw [if_pos hb]
    exact ndEnts_applyFirst (fun x _ => rfl) (fun x _ => he) h
  · rw [if_neg hb]
    exact ndEnts_append_one (by simpa using hb) he h

mutual
theorem ndEnt_mergeEnt (p : Ent) (o : Option Ent)
    (hp : ndEnt p = true) (ho : ∀ x, o = some x → ndEnt x = true) :
    ndEnt (mergeEnt p o) = true := by
  cases p with
  | file n rem sz =>
    cases o with
    | none => simpa [mergeEnt] using hp
    | some x => cases x <;> simpa [mergeEnt] using hp
  | afile n rem sz ok ps =>
    cases o with
    | none => simpa [mergeEnt] using hp
    | some x => cases x <;> simpa [mergeEnt] using hp
  | dir n cs =>
    cases o with
    | none => simpa [mergeEnt] using hp
    | some x =>
      cases x with
      | file m rem sz => simpa [mergeEnt] using hp
      | afile m rem sz ok ps => simpa [mergeEnt] using hp
      | dir m cs0 =>
        have h2 : ndEnts cs0 = true := by
          have := ho (Ent.dir m cs0) rfl
          simpa [ndEnt] using this
        have := ndEnts_mergeEnts cs cs0 (by simpa [ndEnt] using hp) h2
        simp only [mergeEnt, ndEnt]
        exact this
termination_by sizeOf p

theorem ndEnts_mergeEnts (ps es : List Ent)
    (hp : ndEnts ps = true) (he : ndEnts es = true) :
    ndEnts (mergeEnts ps es) = true := by
  cases ps with
  | nil => simpa [mergeEnts] using he
  | cons p ps2 =>
    rw [mergeEnts]
    simp only [ndEnts, Bool.and_eq_true] at hp
    refine ndEnts_mergeEnts ps2 _ hp.2 ?_
    refine ndEnts_place1 ?_ he
    refine ndEnt_mergeEnt p _ hp.1.2 ?_
    intro x hx
    exact ndEnt_of_mem (List.mem_of_find?_eq_some hx) he
termination_by sizeOf ps
end

theorem ndEnts_updateAt (d : Path) (f : List Ent → List Ent)
    (hf : ∀ cs, ndEnts cs = true → ndEnts (f cs) = true) :
    ∀ fs : FS, ndEnts fs = true → ndEnts (updateAt d f fs) = true := by
  induction d with
  | nil => intro fs h; exact hf fs h
  | cons n d2 ih =>
    intro fs h
    simp only [updateAt]
    refine ndEnts_applyFirst ?_ ?_ h
    · intro e he; cases e <;> simpa [Ent.name] using he
    · intro e he
      cases e with
      | file _ _ _ => exact he
      | afile _ _ _ _ _ => exact he
      | dir m cs => simpa [ndEnt] using ih cs (by simpa [ndEnt] using he)

theorem ndEnt_of_lookup {e : Ent} :
    ∀ (fs : FS) (p : Path), lookupEnt fs p = some e →
      ndEnts fs = true → ndEnt e = true := by
  intro fs p
  induction p generalizing fs with
  | nil => intro h; simp [lookupEnt] at h
  | cons n p2 ih =>
    intro h hok
    by_cases hp2 : p2 = []
    · subst hp2
      simp only [lookupEnt] at h
      exact ndEnt_of_mem (List.mem_of_find?_eq_some h) hok
    · rw [lookupEnt_cons₂ _ _ _ hp2] at h
      cases hf : fs.find? (fun x => x.name = n) with
      | none => rw [hf] at h; simp at h
      | some x =>
        rw [hf] at h
        cases x with
        | file _ _ _ => simp at h
        | afile _ _ _ _ _ => simp at h
        | dir m cs =>
          have hx := ndEnt_of_mem (List.mem_of_find?_eq_some hf) hok
          simp only [ndEnt] at hx
          exact ih cs h hx

/-! ### Soundness and completeness of the rescanning walk -/

theorem lookupEnt_cons_same (e : Ent) (es : List Ent) (q : Path)
    (hq : q ≠ []) (hh : q.headD "" = e.name) :
    lookupEnt (e :: es) q = lookupEnt [e] q := by
  cases q with
  | nil => exact absurd rfl hq
  | cons m q2 =>
    simp only [List.headD_cons] at hh
    by_cases h2 : q2 = []
    · subst h2
      simp only [lookupEnt]
      rw [List.find?_cons_of_pos _ (by simp [hh]),
        List.find?_cons_of_pos _ (by simp [hh])]
    · rw [lookupEnt_cons₂ _ _ _ h2, lookupEnt_cons₂ _ _ _ h2,
        List.find?_cons_of_pos _ (by simp [hh]),
        List.find?_cons_of_pos _ (by simp [hh])]

theorem lookupEnt_cons_skip (e : Ent) (es : List Ent) (q : Path)
    (hq : q ≠ []) (hh : ¬ q.headD "" = e.name) :
    lookupEnt (e :: es) q = lookupEnt es q := by
  cases q with
  | nil => exact absurd rfl hq
  | cons m q2 =>
    simp only [List.headD_cons] at hh
    have hne : ¬ e.name = m := fun hc => hh hc.symm
    by_cases h2 : q2 = []
    · subst h2
      simp only [lookupEnt]
      rw [List.find?_cons_of_neg _ (by simpa using hne)]
    · rw [lookupEnt_cons₂ _ _ _ h2, lookupEnt_cons₂ _ _ _ h2,
        List.find?_cons_of_neg _ (by simpa using hne)]

theorem any_of_lookup_head {es : List Ent} {m : String} {q2 : Path} {x : Ent}
    (h : lookupEnt es (m :: q2) = some x) :
    es.any (fun e => e.name = m) = true := by
  have hf : ∃ y, es.find? (fun e => e.name = m) = some y := by
    by_cases h2 : q2 = []
    · subst h2
      simp only [lookupEnt] at h
      exact ⟨x, h⟩
    · rw [lookupEnt_cons₂ _ _ _ h2] at h
      cases hf : es.find? (fun e => e.name = m) with
      | none => rw [hf] at h; simp at h
      | some y => exact ⟨y, rfl⟩
  obtain ⟨y, hy⟩ := hf
  exact find?_some_any hy

mutual
theorem findArchEnt_sound (pref : Path) (e : Ent) (p : Path)
    (h : findArchEnt pref e = some p) (hnd : ndEnt e = true) :
    ∃ q n rem sz ok ps, p = pref ++ q ∧ q ≠ [] ∧ q.headD "" = e.name ∧
      q.getLastD "" = n ∧ lookupEnt [e] q = some (.afile n rem sz ok ps) := by
  cases e with
  | file n rem sz => simp [findArchEnt] at h
  | afile n rem sz ok ps =>
    simp only [findArchEnt, Option.some_inj] at h
    refine ⟨[n], n, rem, sz, ok, ps, h.symm, by simp, by simp [Ent.name], by simp, ?_⟩
    simp only [lookupEnt]
    rw [List.find?_cons_of_pos _ (by simp [Ent.name])]
  | dir n cs =>
    simp only [findArchEnt] at h
    obtain ⟨q, nn, rem, sz, ok, ps, hp, hq, hhead, hlast, hlook⟩ :=
      findArchEnts_sound (pref ++ [n]) cs p h (by simpa [ndEnt] using hnd)
    refine ⟨n :: q, nn, rem, sz, ok, ps, by rw [hp]; simp, by simp,
      by simp [Ent.name], ?_, ?_⟩
    · rw [← hlast]
      cases q with
      | nil => exact absurd rfl hq
      | cons a b => simp
    · rw [lookupEnt_cons₂ _ _ _ hq,
        List.find?_cons_of_pos _ (by simp [Ent.name])]
      exact hlook
termination_by sizeOf e

theorem findArchEnts_sound (pref : Path) (es : List Ent) (p : Path)
    (h : findArchEnts pref es = some p) (hnd : ndEnts es = true) :
    ∃ q n rem sz ok ps, p = pref ++ q ∧ q ≠ [] ∧
      es.any (fun x => x.name = q.headD "") = true ∧
      q.getLastD "" = n ∧ lookupEnt es q = some (.afile n rem sz ok ps) := by
  cases es with
  | nil => simp [findArchEnts] at h
  | cons e tl =>
    simp only [ndEnts, Bool.and_eq_true] at hnd
    rw [findArchEnts] at h
    cases he : findArchEnt pref e with
    | some r =>
      rw [he] at h
      simp only [Option.some_inj] at h
      subst h
      obtain ⟨q, nn, rem, sz, ok, ps, hp, hq, hhead, hlast, hlook⟩ :=
        findArchEnt_sound pref e r he hnd.1.2
      refine ⟨q, nn, rem, sz, ok, ps, hp, hq, ?_, hlast, ?_⟩
      · cases q with
        | nil => exact absurd rfl hq
        | cons a b =>
          simp only [List.headD_cons] at hhead
          simp [List.any_cons, hhead]
      · rw [lookupEnt_cons_same e tl q hq hhead]
        exact hlook
    | none =>
      rw [he] at h
      obtain ⟨q, nn, rem, sz, ok, ps, hp, hq, hhead, hlast, hlook⟩ :=
        findArchEnts_sound pref tl p h hnd.2
      refine ⟨q, nn, rem, sz, ok, ps, hp, hq, ?_, hlast, ?_⟩
      · cases q with
        | nil => exact absurd rfl hq
        | cons a b =>
          simp only [List.headD_cons] at hhead
          simp only [List.any_cons, List.headD_cons, Bool.or_eq_true]
          right
          exact hhead
      · have hneq : ¬ q.headD "" = e.name := by
          intro hc
          have := hnd.1.1
          rw [← hc] at this
          rw [hhead] at this
          simp at this
        rw [lookupEnt_cons_skip e tl q hq hneq]
        exact hlook
termination_by sizeOf es
end

theorem findArchEnts_mem_isSome {pref : Path} {es : List Ent} {e : Ent}
    (hm : e ∈ es) (he : (findArchEnt pref e).isSome = true) :
    (findArchEnts pref es).isSome = true := by
  induction es with
  | nil => simp at hm
  | cons x tl ih =>
    rw [findArchEnts]
    cases hx : findArchEnt pref x with
    | some r => simp
    | none =>
      rcases List.mem_cons.1 hm with h1 | h1
      · subst h1; rw [hx] at he; simp at he
      · exact ih h1

theorem findArchEnts_complete {es : List Ent} {q : Path}
    {n : String} {rem : Bool} {sz : Nat} {ok : Bool} {ps : List Ent}
    (h : lookupEnt es q = some (.afile n rem sz ok ps)) :
    ∀ pref, (findArchEnts pref es).isSome = true := by
  induction q generalizing es with
  | nil => simp [lookupEnt] at h
  | cons m q2 ih =>
    intro pref
    by_cases h2 : q2 = []
    · subst h2
      simp only [lookupEnt] at h
      exact findArchEnts_mem_isSome (List.mem_of_find?_eq_some h)
        (by simp [findArchEnt])
    · rw [lookupEnt_cons₂ _ _ _ h2] at h
      cases hf : es.find? (fun x => x.name = m) with
      | none => rw [hf] at h; simp at h
      | some x =>
        rw [hf] at h
        cases x with
        | file _ _ _ => simp at h
        | afile _ _ _ _ _ => simp at h
        | dir mm cs =>
          refine findArchEnts_mem_isSome (List.mem_of_find?_eq_some hf) ?_
          simp only [findArchEnt]
          exact ih h (pref ++ [mm])

theorem okEnts_childrenAt {q : Ent → Bool} :
    ∀ (fs : FS) (d : Path) (cs : List Ent), childrenAt fs d = some cs →
      okEnts q fs = true → okEnts q cs = true := by
  intro fs d
  induction d generalizing fs with
  | nil => intro cs h hok; simp only [childrenAt] at h; cases h; exact hok
  | cons n d2 ih =>
    intro cs h hok
    simp only [childrenAt] at h
    cases hf : fs.find? (fun e => e.name = n) with
    | none => rw [hf] at h; simp at h
    | some x =>
      rw [hf] at h
      cases x with
      | file _ _ _ => simp at h
      | afile _ _ _ _ _ => simp at h
      | dir m cs0 =>
        have hx := okEnt_of_find? hf hok
        simp only [okEnt, Bool.and_eq_true] at hx
        exact ih cs0 cs h hx.2

theorem ndEnts_childrenAt :
    ∀ (fs : FS) (d : Path) (cs : List Ent), childrenAt fs d = some cs →
      ndEnts fs = true → ndEnts cs = true := by
  intro fs d
  induction d generalizing fs with
  | nil => intro cs h hok; simp only [childrenAt] at h; cases h; exact hok
  | cons n d2 ih =>
    intro cs h hok
    simp only [childrenAt] at h
    cases hf : fs.find? (fun e => e.name = n) with
    | none => rw [hf] at h; simp at h
    | some x =>
      rw [hf] at h
      cases x with
      | file _ _ _ => simp at h
      | afile _ _ _ _ _ => simp at h
      | dir m cs0 =>
        have hx := ndEnt_of_mem (List.mem_of_find?_eq_some hf) hok
        simp only [ndEnt] at hx
        exact ih cs0 cs h hx

theorem concat_dropLast (d : Path) (n : String) : (d ++ [n]).dropLast = d := by
  simp

theorem concat_getLastD (d : Path) (n : String) : (d ++ [n]).getLastD "" = n := by
  rw [List.getLastD_eq_getLast?, List.getLast?_concat]
  rfl

/-- The state transition of a successful ArchiveHandler.extract of the
archive file n sitting in directory d, extracting into d itself: the
payload is merged into d and the archive file is removed. -/
theorem extract_step {fs : FS} {d : Path} {n : String} {rem : Bool}
    {sz : Nat} {ok : Bool} {ps cs : List Ent}
    (hc : childrenAt fs d = some cs)
    (hfind : cs.find? (fun x => x.name = n) = some (.afile n rem sz ok ps))
    (hsz : sz.beq 0 = false) (hrem : rem = true) (hok : ok = true) :
    extract fs (d ++ [n]) d =
      (some true, updateAt d (fun l => removeName n (mergeEnts ps l)) fs) := by
  have hlook : lookupEnt fs (d ++ [n]) = some (.afile n rem sz ok ps) := by
    rw [lookupEnt_append _ _ _ (by simp), hc]
    simpa [lookupEnt] using hfind
  have hemp : is_empty fs (d ++ [n]) = false := by
    simp [is_empty, hlook, hsz]
  subst hrem hok
  have hext : extract fs (d ++ [n]) d =
      (some true, removePath (updateAt d (mergeEnts ps) fs) (d ++ [n])) := by
    simp [extract, hemp, hlook]
  rw [hext]
  unfold removePath
  rw [concat_dropLast, concat_getLastD, updateAt_updateAt]

/-- Consuming an archive strictly decreases the number of archive
files in the tree. -/
theorem extract_step_weight {fs : FS} {d : Path} {n : String} {rem : Bool}
    {sz : Nat} {ok : Bool} {ps cs : List Ent}
    (hc : childrenAt fs d = some cs)
    (hfind : cs.find? (fun x => x.name = n) = some (.afile n rem sz ok ps)) :
    entsWeight (updateAt d (fun l => removeName n (mergeEnts ps l)) fs) <
      entsWeight fs := by
  have hw := entsWeight_updateAt d (fun l => removeName n (mergeEnts ps l)) fs cs hc
  simp only [] at hw
  have hlt := consume_weight_lt hfind
  omega

theorem existsPath_ne_nil (fs : FS) (p : Path) (hp : p ≠ []) :
    existsPath fs p = (lookupEnt fs p).isSome := by
  cases p with
  | nil => exact absurd rfl hp
  | cons a b => rfl

theorem dropLast_concat_getLastD (p : Path) (hp : p ≠ []) :
    p.dropLast ++ [p.getLastD ""] = p := by
  rw [List.getLastD_eq_getLast?, List.getLast?_eq_getLast _ hp,
    Option.getD_some, List.dropLast_append_getLast hp]

/-- The rescanning walk reaches the fixpoint: with every archive in
the tree well behaved (nonzero size, decodable, removable) and enough
fuel, rescan raises nothing, preserves the invariants, never adds
archive files, and ends with no archive file left in the destination
subtree. -/
theorem rescan_fix : ∀ (fuel : Nat) (fs : FS) (dest : Path),
    goodEnts fs = true → ndEnts fs = true → entsWeight fs < fuel →
    ∃ fs2, rescan fuel fs dest = (some (), fs2) ∧
      goodEnts fs2 = true ∧ ndEnts fs2 = true ∧
      entsWeight fs2 ≤ entsWeight fs ∧ noArchUnder fs2 dest = true := by
  intro fuel
  induction fuel with
  | zero => intro fs dest _ _ hw; omega
  | succ fuel ih =>
    intro fs dest hg hnd hw
    cases hfa : findArchUnder fs dest with
    | none =>
      refine ⟨fs, ?_, hg, hnd, le_refl _, by simp [noArchUnder, hfa]⟩
      simp only [rescan]
      rw [hfa]
    | some p =>
      have hcd : ∃ cs0, childrenAt fs dest = some cs0 ∧
          findArchEnts dest cs0 = some p := by
        unfold findArchUnder at hfa
        cases hc : childrenAt fs dest with
        | none => rw [hc] at hfa; simp at hfa
        | some cs0 => rw [hc] at hfa; exact ⟨cs0, rfl, hfa⟩
      obtain ⟨cs0, hc0, hfes⟩ := hcd
      have hnd0 := ndEnts_childrenAt fs dest cs0 hc0 hnd
      obtain ⟨q, n, rem, sz, ok, ps, hp, hq, _, hlast, hlq⟩ :=
        findArchEnts_sound dest cs0 p hfes hnd0
      have hlook : lookupEnt fs p = some (.afile n rem sz ok ps) := by
        rw [hp, lookupEnt_append _ _ _ hq, hc0]; exact hlq
      have hp2 : p = (dest ++ q.dropLast) ++ [n] := by
        rw [hp, List.append_assoc]
        congr 1
        rw [← hlast]
        exact (dropLast_concat_getLastD q hq).symm
      set d2 := dest ++ q.dropLast with hd2
      rw [hp2] at hlook
      have hflag := okEnt_of_lookup fs _ hlook hg
      simp only [okEnt, goodSh, Bool.and_eq_true, Bool.not_eq_true'] at hflag
      obtain ⟨⟨⟨hrem, hsz⟩, hok⟩, hpsg⟩ := hflag
      have hpsnd : ndEnts ps = true := by
        have := ndEnt_of_lookup fs _ hlook hnd
        simpa [ndEnt] using this
      have hcc : ∃ cs2, childrenAt fs d2 = some cs2 ∧
          cs2.find? (fun x => x.name = n) = some (.afile n rem sz ok ps) := by
        have hl2 := hlook
        rw [lookupEnt_append _ _ _ (by simp)] at hl2
        cases hc2 : childrenAt fs d2 with
        | none => rw [hc2] at hl2; simp at hl2
        | some cs2 =>
          rw [hc2] at hl2
          exact ⟨cs2, rfl, by simpa [lookupEnt] using hl2⟩
      obtain ⟨cs2, hc2, hfind2⟩ := hcc
      have hex : existsPath fs (d2 ++ [n]) = true := by
        rw [existsPath_ne_nil _ _ (by simp), hlook]; rfl
      have harch : is_archive fs (d2 ++ [n]) = true := by
        simp [is_archive, hlook]
      have hstep := extract_step hc2 hfind2 hsz hrem hok
      set fsA := updateAt d2 (fun l => removeName n (mergeEnts ps l)) fs with hfsA
      have hgA : goodEnts fsA = true := by
        refine okEnts_updateAt (fun _ _ => rfl) d2 _ ?_ fs hg
        intro l hl
        exact okEnts_filter _ (okEnts_mergeEnts (fun _ _ => rfl) ps l hpsg hl)
      have hndA : ndEnts fsA = true := by
        refine ndEnts_updateAt d2 _ ?_ fs hnd
        intro l hl
        exact ndEnts_filter _ (ndEnts_mergeEnts ps l hpsnd hl)
      have hwA : entsWeight fsA < entsWeight fs := extract_step_weight hc2 hfind2
      obtain ⟨fsB, hB, hgB, hndB, hwB, _⟩ := ih fsA d2 hgA hndA (by omega)
      obtain ⟨fs2, h2, hg2, hnd2, hw2, hna2⟩ := ih fsB dest hgB hndB (by omega)
      refine ⟨fs2, ?_, hg2, hnd2, by omega, hna2⟩
      simp only [rescan]
      rw [hfa, hp2]
      simp only [hex, harch, not_true, Bool.not_true, if_false]
      rw [concat_dropLast]
      simp only [hstep, hB, h2]

/-- extract_files_recursive on a well-behaved archive file sitting in
the destination directory: the call succeeds and the destination
subtree ends with no archive file at all. -/
theorem efr_good (fuel : Nat) (fs : FS) (dest : Path) (n : String)
    {rem : Bool} {sz : Nat} {ok : Bool} {ps : List Ent}
    (hlook : lookupEnt fs (dest ++ [n]) = some (.afile n rem sz ok ps))
    (hg : goodEnts fs = true) (hnd : ndEnts fs = true)
    (hw : entsWeight fs < fuel) :
    ∃ fs2, extract_files_recursive fuel fs (dest ++ [n]) dest =
        (some true, fs2) ∧
      goodEnts fs2 = true ∧ ndEnts fs2 = true ∧
      noArchUnder fs2 dest = true := by
  have hflag := okEnt_of_lookup fs _ hlook hg
  simp only [okEnt, goodSh, Bool.and_eq_true, Bool.not_eq_true'] at hflag
  obtain ⟨⟨⟨hrem, hsz⟩, hok⟩, hpsg⟩ := hflag
  have hpsnd : ndEnts ps = true := by
    have := ndEnt_of_lookup fs _ hlook hnd
    simpa [ndEnt] using this
  have hcc : ∃ cs2, childrenAt fs dest = some cs2 ∧
      cs2.find? (fun x => x.name = n) = some (.afile n rem sz ok ps) := by
    have hl2 := hlook
    rw [lookupEnt_append _ _ _ (by simp)] at hl2
    cases hc2 : childrenAt fs dest with
    | none => rw [hc2] at hl2; simp at hl2
    | some cs2 =>
      rw [hc2] at hl2
      exact ⟨cs2, rfl, by simpa [lookupEnt] using hl2⟩
  obtain ⟨cs2, hc2, hfind2⟩ := hcc
  have hex : existsPath fs (dest ++ [n]) = true := by
    rw [existsPath_ne_nil _ _ (by simp), hlook]; rfl
  have harch : is_archive fs (dest ++ [n]) = true := by
    simp [is_archive, hlook]
  have hstep := extract_step hc2 hfind2 hsz hrem hok
  set fsA := updateAt dest (fun l => removeName n (mergeEnts ps l)) fs with hfsA
  have hgA : goodEnts fsA = true := by
    refine okEnts_updateAt (fun _ _ => rfl) dest _ ?_ fs hg
    intro l hl
    exact okEnts_filter _ (okEnts_mergeEnts (fun _ _ => rfl) ps l hpsg hl)
  have hndA : ndEnts fsA = true := by
    refine ndEnts_updateAt dest _ ?_ fs hnd
    intro l hl
    exact ndEnts_filter _ (ndEnts_mergeEnts ps l hpsnd hl)
  have hwA : entsWeight fsA < entsWeight fs := extract_step_weight hc2 hfind2
  obtain ⟨fs2, hR, hg2, hnd2, hw2, hna2⟩ := rescan_fix fuel fsA dest hgA hndA (by omega)
  refine ⟨fs2, ?_, hg2, hnd2, hna2⟩
  simp only [extract_files_recursive]
  simp only [hex, harch, not_true, Bool.not_true, if_false]
  simp only [hstep, hR]

/-- ArchiveHandler.extract never lets an exception escape when it is
called on an archive file and every file of the tree is deletable (the
only escaping exception is a failed deletion). -/
theorem extract_rem {fs : FS} {p d : Path}
    (ha : is_archive fs p = true) (hrem : removableEnts fs = true) :
    ∃ b fs2, extract fs p d = (some b, fs2) ∧ removableEnts fs2 = true := by
  cases hlook : lookupEnt fs p with
  | none => rw [is_archive, hlook] at ha; simp at ha
  | some e =>
    cases e with
    | file _ _ _ => rw [is_archive, hlook] at ha; simp at ha
    | dir _ _ => rw [is_archive, hlook] at ha; simp at ha
    | afile n rm sz ok ps =>
      have hflag := okEnt_of_lookup fs _ hlook hrem
      simp only [okEnt, removableSh, Bool.and_eq_true] at hflag
      obtain ⟨hrm, hps⟩ := hflag
      subst hrm
      by_cases hemp : is_empty fs p = true
      · exact ⟨false, fs, by simp [extract, hemp], hrem⟩
      · have hpres : ∀ fsx : FS, removableEnts fsx = true →
            removableEnts (removePath fsx p) = true := by
          intro fsx hx
          exact okEnts_updateAt (fun _ _ => rfl) _ _
            (fun l hl => okEnts_filter _ hl) fsx hx
        cases hok2 : ok with
        | true =>
          refine ⟨true, removePath (updateAt d (mergeEnts ps) fs) p, ?_, ?_⟩
          · simp [extract, hemp, hlook, hok2]
          · refine hpres _ ?_
            exact okEnts_updateAt (fun _ _ => rfl) d _
              (fun l hl => okEnts_mergeEnts (fun _ _ => rfl) ps l hps hl) fs hrem
        | false =>
          refine ⟨false, removePath fs p, ?_, hpres fs hrem⟩
          simp [extract, hemp, hlook, hok2]

/-- With every file deletable, the rescanning walk raises nothing. -/
theorem rescan_no_exc : ∀ (fuel : Nat) (fs : FS) (dest : Path),
    removableEnts fs = true →
    ∃ fs2, rescan fuel fs dest = (some (), fs2) ∧
      removableEnts fs2 = true := by
  intro fuel
  induction fuel with
  | zero => intro fs dest h; exact ⟨fs, rfl, h⟩
  | succ fuel ih =>
    intro fs dest h
    cases hfa : findArchUnder fs dest with
    | none =>
      refine ⟨fs, ?_, h⟩
      simp only [rescan]
      rw [hfa]
    | some p =>
      by_cases hex : existsPath fs p = true
      · by_cases harch : is_archive fs p = true
        · obtain ⟨b, fsA, hx, hA⟩ := extract_rem (d := p.dropLast) harch h
          cases b with
          | false =>
            obtain ⟨fs2, h2, hr2⟩ := ih fsA dest hA
            refine ⟨fs2, ?_, hr2⟩
            simp only [rescan]
            rw [hfa]
            simp only [hex, harch, not_true, Bool.not_true, if_false]
            simp only [hx, h2]
          | true =>
            obtain ⟨fsB, hB, hrB⟩ := ih fsA p.dropLast hA
            obtain ⟨fs2, h2, hr2⟩ := ih fsB dest hrB
            refine ⟨fs2, ?_, hr2⟩
            simp only [rescan]
            rw [hfa]
            simp only [hex, harch, not_true, Bool.not_true, if_false]
            simp only [hx, hB, h2]
        · obtain ⟨fs2, h2, hr2⟩ := ih fs dest h
          refine ⟨fs2, ?_, hr2⟩
          simp only [rescan]
          rw [hfa]
          simp only [hex, not_true, Bool.not_true, if_false, harch,
            Bool.false_eq_true, not_false_eq_true, if_true]
          exact h2
      · obtain ⟨fs2, h2, hr2⟩ := ih fs dest h
        refine ⟨fs2, ?_, hr2⟩
        simp only [rescan]
        rw [hfa]
        simp only [hex, Bool.false_eq_true, not_false_eq_true, if_true]
        exact h2

/-- With every file deletable, one extraction job raises nothing: it
reports a boolean and keeps every file deletable. -/
theorem efr_no_exc (fuel : Nat) (fs : FS) (p dest : Path)
    (h : removableEnts fs = true) :
    ∃ b fs2, extract_files_recursive fuel fs p dest = (some b, fs2) ∧
      removableEnts fs2 = true := by
  by_cases hex : existsPath fs p = true
  · by_cases harch : is_archive fs p = true
    · obtain ⟨b, fsA, hx, hA⟩ := extract_rem (d := dest) harch h
      cases b with
      | false =>
        refine ⟨false, fsA, ?_, hA⟩
        simp only [extract_files_recursive, hex, harch, not_true,
          Bool.not_true, if_false]
        simp only [hx]
      | true =>
        obtain ⟨fs2, h2, hr2⟩ := rescan_no_exc fuel fsA dest hA
        refine ⟨true, fs2, ?_, hr2⟩
        simp only [extract_files_recursive, hex, harch, not_true,
          Bool.not_true, if_false]
        simp only [hx, h2]
    · refine ⟨false, fs, ?_, h⟩
      simp only [extract_files_recursive, hex, not_true, Bool.not_true,
        if_false, harch, Bool.false_eq_true, not_false_eq_true, if_true]
  · refine ⟨false, fs, ?_, h⟩
    simp only [extract_files_recursive, hex, Bool.false_eq_true,
      not_false_eq_true, if_true]

/-- With every file deletable, every job of a batch reports a boolean:
no slot raises. -/
theorem batchRun_no_exc (fuel : Nat) :
    ∀ (fs : FS) (paths : List Path) (dest : Path),
    removableEnts fs = true →
    ∃ rs : List Bool, (batchRun fuel fs paths dest).1 = rs.map some ∧
      rs.length = paths.length := by
  intro fs paths
  induction paths generalizing fs with
  | nil => intro dest _; exact ⟨[], rfl, rfl⟩
  | cons p ps ih =>
    intro dest h
    obtain ⟨b, fsA, hx, hA⟩ := efr_no_exc fuel fs p dest h
    obtain ⟨rs, hrs, hlen⟩ := ih fsA dest hA
    refine ⟨b :: rs, ?_, by simp [hlen]⟩
    simp only [batchRun, hx, hrs]
    rfl

/-! ### Lemmas for the conflict-safe move -/

theorem lookup_removeName_ne (cs : List Ent) (n : String) (r : Path)
    (hr : r ≠ []) (hh : ¬ r.headD "" = n) :
    lookupEnt (removeName n cs) r = lookupEnt cs r := by
  cases r with
  | nil => exact absurd rfl hr
  | cons m t =>
    simp only [List.headD_cons] at hh
    by_cases ht : t = []
    · subst ht
      simp only [lookupEnt]
      exact find?_removeName_ne _ _ _ hh
    · rw [lookupEnt_cons₂ _ _ _ ht, lookupEnt_cons₂ _ _ _ ht,
        find?_removeName_ne _ _ _ hh]

theorem lookup_place1_ne (cs : List Ent) (e : Ent) (r : Path)
    (hr : r ≠ []) (hh : ¬ r.headD "" = e.name) :
    lookupEnt (place1 e cs) r = lookupEnt cs r := by
  cases r with
  | nil => exact absurd rfl hr
  | cons m t =>
    simp only [List.headD_cons] at hh
    by_cases ht : t = []
    · subst ht
      simp only [lookupEnt]
      exact find?_place1_ne _ _ _ hh
    · rw [lookupEnt_cons₂ _ _ _ ht, lookupEnt_cons₂ _ _ _ ht,
        find?_place1_ne _ _ _ hh]

theorem childrenAt_none_of_nondir {e : Ent} :
    ∀ (fs : FS) (p : Path), lookupEnt fs p = some e → e.isDir = false →
      childrenAt fs p = none := by
  intro fs p
  induction p generalizing fs with
  | nil => intro h _; simp [lookupEnt] at h
  | cons n p2 ih =>
    intro h hd
    by_cases hp2 : p2 = []
    · subst hp2
      simp only [lookupEnt] at h
      simp only [childrenAt, h]
      cases e with
      | file _ _ _ => rfl
      | afile _ _ _ _ _ => rfl
      | dir _ _ => simp [Ent.isDir] at hd
    · rw [lookupEnt_cons₂ _ _ _ hp2] at h
      simp only [childrenAt]
      cases hf : fs.find? (fun x => x.name = n) with
      | none => rfl
      | some x =>
        rw [hf] at h
        cases x with
        | file _ _ _ => rfl
        | afile _ _ _ _ _ => rfl
        | dir m cs => exact ih cs h hd

/-- A non-directory entry is untouched by updateAt unless its path
strictly extends the updated directory path. -/
theorem lookupEnt_updateAt_frame (d : Path) (f : List Ent → List Ent)
    (hd : d ≠ []) :
    ∀ (fs : FS) (q : Path) (e : Ent), lookupEnt fs q = some e →
      e.isDir = false → (∀ r, r ≠ [] → q ≠ d ++ r) →
      lookupEnt (updateAt d f fs) q = some e := by
  induction d with
  | nil => exact absurd rfl hd
  | cons n d2 ih =>
    intro fs q e he hdir hq
    cases q with
    | nil => simp [lookupEnt] at he
    | cons m q2 =>
      have hpres : ∀ x : Ent, x.name = n → (match x with
          | Ent.dir mm cs => Ent.dir mm (updateAt d2 f cs)
          | x => x).name = n := by
        intro x hx; cases x <;> simpa [Ent.name] using hx
      by_cases hmn : m = n
      · subst hmn
        by_cases hq2 : q2 = []
        · subst hq2
          simp only [lookupEnt] at he
          simp only [updateAt, lookupEnt]
          rw [find?_applyFirst_self _ _ _ hpres, he]
          cases e with
          | file _ _ _ => rfl
          | afile _ _ _ _ _ => rfl
          | dir _ _ => simp [Ent.isDir] at hdir
        · rw [lookupEnt_cons₂ _ _ _ hq2] at he
          simp only [updateAt]
          rw [lookupEnt_cons₂ _ _ _ hq2,
            find?_applyFirst_self _ _ _ hpres]
          cases hf : fs.find? (fun x => x.name = m) with
          | none => rw [hf] at he; simp at he
          | some x =>
            rw [hf] at he
            cases x with
            | file _ _ _ => simp at he
            | afile _ _ _ _ _ => simp at he
            | dir mm cs =>
              simp only [Option.map_some']
              by_cases hd2 : d2 = []
              · subst hd2
                exfalso
                exact hq q2 hq2 (by simp)
              · exact ih hd2 cs q2 e he hdir
                  (fun r hr hc => hq r hr (by rw [hc]; rfl))
      · by_cases hq2 : q2 = []
        · subst hq2
          simp only [lookupEnt] at he
          simp only [updateAt, lookupEnt]
          rw [find?_applyFirst_ne _ _ _ _ hpres hmn]
          exact he
        · rw [lookupEnt_cons₂ _ _ _ hq2] at he
          simp only [updateAt]
          rw [lookupEnt_cons₂ _ _ _ hq2,
            find?_applyFirst_ne _ _ _ _ hpres hmn]
          exact he

/-- Removing a non-directory entry keeps every directory listing in
place (possibly with fewer entries). -/
theorem childrenAt_removePath_isSome {e : Ent} :
    ∀ (src : Path) (fs : FS) (par : Path), lookupEnt fs src = some e →
      e.isDir = false → (childrenAt fs par).isSome = true →
      (childrenAt (removePath fs src) par).isSome = true := by
  intro src
  induction src with
  | nil => intro fs par h; simp [lookupEnt] at h
  | cons a src2 ih =>
    intro fs par he hdir hpar
    by_cases hs2 : src2 = []
    · subst hs2
      simp only [lookupEnt] at he
      unfold removePath
      have hgl : ([a] : Path).getLastD "" = a := rfl
      have hdl : ([a] : Path).dropLast = [] := rfl
      rw [hgl, hdl]
      simp only [updateAt]
      cases par with
      | nil => simp [childrenAt]
      | cons m p2 =>
        by_cases hma : m = a
        · subst hma
          simp only [childrenAt, he] at hpar
          cases e with
          | file _ _ _ => simp at hpar
          | afile _ _ _ _ _ => simp at hpar
          | dir _ _ => simp [Ent.isDir] at hdir
        · simp only [childrenAt] at hpar ⊢
          rw [find?_removeName_ne _ _ _ hma]
          exact hpar
    · have hsplit : (a :: src2).dropLast = a :: src2.dropLast := by
        cases src2 with
        | nil => exact absurd rfl hs2
        | cons b t => rfl
      have hlastd : (a :: src2).getLastD "" = src2.getLastD "" := by
        cases src2 with
        | nil => exact absurd rfl hs2
        | cons b t => rfl
      rw [lookupEnt_cons₂ _ _ _ hs2] at he
      unfold removePath
      rw [hsplit, hlastd]
      simp only [updateAt]
      have hpres : ∀ x : Ent, x.name = a → (match x with
          | Ent.dir mm cs =>
            Ent.dir mm (updateAt src2.dropLast (removeName (src2.getLastD "")) cs)
          | x => x).name = a := by
        intro x hx; cases x <;> simpa [Ent.name] using hx
      cases par with
      | nil => simp [childrenAt]
      | cons m p2 =>
        by_cases hma : m = a
        · subst hma
          simp only [childrenAt] at hpar ⊢
          rw [find?_applyFirst_self _ _ _ hpres]
          cases hf : fs.find? (fun x => x.name = m) with
          | none => rw [hf] at he; simp at he
          | some x =>
            rw [hf] at he hpar
            cases x with
            | file _ _ _ => simp at he
            | afile _ _ _ _ _ => simp at he
            | dir mm cs =>
              simp only [Option.map_some']
              exact ih cs p2 he hdir hpar
        · simp only [childrenAt] at hpar ⊢
          rw [find?_applyFirst_ne _ _ _ _ hpres hma]
          exact hpar

theorem applyFirst_found_id {es : List Ent} {n : String} {x : Ent}
    {g : Ent → Ent} (hf : es.find? (fun v => v.name = n) = some x)
    (hgx : g x = x) : applyFirst n g es = es := by
  induction es with
  | nil => rfl
  | cons v tl ih =>
    by_cases hv : v.name = n
    · rw [List.find?_cons_of_pos _ (by simpa using hv)] at hf
      cases hf
      simp only [applyFirst, if_pos hv, hgx]
    · rw [List.find?_cons_of_neg _ (by simpa using hv)] at hf
      simp only [applyFirst, if_neg hv, ih hf]

/-- os.makedirs on an already existing directory path changes nothing. -/
theorem makedirs_noop : ∀ (d : Path) (fs cs : FS),
    childrenAt fs d = some cs → makedirs d fs = some fs := by
  intro d
  induction d with
  | nil => intro fs cs _; rfl
  | cons n d2 ih =>
    intro fs cs h
    simp only [childrenAt] at h
    cases hf : fs.find? (fun e => e.name = n) with
    | none => rw [hf] at h; simp at h
    | some x =>
      rw [hf] at h
      cases x with
      | file _ _ _ => simp at h
      | afile _ _ _ _ _ => simp at h
      | dir m cs0 =>
        simp only [makedirs, hf]
        rw [ih cs0 cs h]
        simp only [Option.map_some']
        rw [applyFirst_found_id hf rfl]

theorem cand_zero (dst : Path) (base ext : String) :
    cand dst base ext 0 = dst := rfl

theorem cand_succ (dst : Path) (base ext : String) (k : Nat) :
    cand dst base ext (k + 1) =
      dst.dropLast ++ [base ++ "_" ++ Nat.repr (k + 1) ++ ext] := rfl

theorem cand_dropLast (dst : Path) (base ext : String) (k : Nat) :
    (cand dst base ext k).dropLast = dst.dropLast := by
  cases k with
  | zero => rfl
  | succ k => rw [cand_succ, concat_dropLast]

theorem cand_ne_nil (dst : Path) (base ext : String) (k : Nat)
    (hdst : dst ≠ []) : cand dst base ext k ≠ [] := by
  cases k with
  | zero => exact hdst
  | succ k => rw [cand_succ]; simp

/-- What the conflict loop returns: the first free candidate at or
after the current one (each earlier candidate in that range exists). -/
theorem findFree_from (fs : FS) (dst : Path) (base ext : String) :
    ∀ (fuel j : Nat) (d : Path),
      findFree fs dst.dropLast base ext fuel (j + 1) (cand dst base ext j) =
        some d →
      ∃ m, j ≤ m ∧ d = cand dst base ext m ∧
        existsPath fs (cand dst base ext m) = false ∧
        ∀ i, j ≤ i → i < m → existsPath fs (cand dst base ext i) = true := by
  intro fuel
  induction fuel with
  | zero =>
    intro j d h
    rw [findFree] at h
    by_cases hex : existsPath fs (cand dst base ext j) = true
    · rw [if_pos hex] at h; simp at h
    · rw [if_neg hex] at h
      simp only [Option.some_inj] at h
      exact ⟨j, le_refl _, h.symm, by simpa using hex, fun i h1 h2 => by omega⟩
  | succ fuel ih =>
    intro j d h
    rw [findFree] at h
    by_cases hex : existsPath fs (cand dst base ext j) = true
    · rw [if_pos hex] at h
      have h2 : findFree fs dst.dropLast base ext fuel (j + 1 + 1)
          (cand dst base ext (j + 1)) = some d := by
        rw [cand_succ]
        exact h
      obtain ⟨m, hm1, hm2, hm3, hm4⟩ := ih (j + 1) d h2
      refine ⟨m, by omega, hm2, hm3, ?_⟩
      intro i h1 h2
      by_cases hij : i = j
      · subst hij; exact hex
      · exact hm4 i (by omega) h2
    · rw [if_neg hex] at h
      simp only [Option.some_inj] at h
      exact ⟨j, le_refl _, h.symm, by simpa using hex, fun i h1 h2 => by omega⟩

/-- The conflict loop terminates whenever some candidate within the
fuel range is free. -/
theorem findFree_total (fs : FS) (dst : Path) (base ext : String) :
    ∀ (fuel j : Nat),
      (∃ m, j ≤ m ∧ m ≤ j + fuel ∧
        existsPath fs (cand dst base ext m) = false) →
      ∃ d, findFree fs dst.dropLast base ext fuel (j + 1)
        (cand dst base ext j) = some d := by
  intro fuel
  induction fuel with
  | zero =>
    intro j ⟨m, h1, h2, h3⟩
    have : m = j := by omega
    subst this
    refine ⟨cand dst base ext m, ?_⟩
    rw [findFree, if_neg (by simp [h3])]
  | succ fuel ih =>
    intro j ⟨m, h1, h2, h3⟩
    by_cases hex : existsPath fs (cand dst base ext j) = true
    · have hmj : ¬ m = j := by
        intro hc; subst hc; rw [hex] at h3; exact absurd h3 (by simp)
      obtain ⟨d, hd⟩ := ih (j + 1) ⟨m, by omega, by omega, h3⟩
      refine ⟨d, ?_⟩
      rw [findFree, if_pos hex]
      rw [cand_succ] at hd
      exact hd
    · refine ⟨cand dst base ext j, ?_⟩
      rw [findFree, if_neg hex]

theorem childrenAt_dropLast_of_lookup {fs : FS} {p : Path} {e : Ent}
    (h : lookupEnt fs p = some e) :
    ∃ cs, childrenAt fs p.dropLast = some cs ∧
      cs.find? (fun x => x.name = p.getLastD "") = some e := by
  have hp : p ≠ [] := by intro hc; rw [hc] at h; simp [lookupEnt] at h
  have hsplit := dropLast_concat_getLastD p hp
  have h2 := h
  rw [← hsplit, lookupEnt_append _ _ _ (by simp)] at h2
  cases hc : childrenAt fs p.dropLast with
  | none => rw [hc] at h2; simp at h2
  | some cs =>
    rw [hc] at h2
    exact ⟨cs, rfl, by simpa [lookupEnt] using h2⟩

/-! ### A free candidate name always exists -/

theorem toDigitsCore_append (fuel : Nat) : ∀ (n : Nat) (acc : List Char),
    Nat.toDigitsCore 10 fuel n acc = Nat.toDigitsCore 10 fuel n [] ++ acc := by
  induction fuel with
  | zero => intro n acc; rfl
  | succ f ih =>
    intro n acc
    simp only [Nat.toDigitsCore]
    by_cases h : n / 10 = 0
    · simp [h]
    · simp only [if_neg h]
      rw [ih (n / 10) [Nat.digitChar (n % 10)],
        ih (n / 10) (Nat.digitChar (n % 10) :: acc)]
      simp

theorem dval_digitChar : ∀ k, k < 10 → dval (Nat.digitChar k) = k := by decide

theorem decVal_append_one (ds : List Char) (c : Char) :
    decVal (ds ++ [c]) = decVal ds * 10 + dval c := by
  simp [decVal, List.foldl_append]

theorem decVal_toDigitsCore : ∀ (n fuel : Nat), n < fuel →
    decVal (Nat.toDigitsCore 10 fuel n []) = n := by
  intro n
  induction n using Nat.strong_induction_on with
  | _ n ih =>
    intro fuel hf
    obtain ⟨f, rfl⟩ : ∃ f, fuel = f + 1 := ⟨fuel - 1, by omega⟩
    simp only [Nat.toDigitsCore]
    by_cases h : n / 10 = 0
    · have h10 : n < 10 := by
        have hdm := Nat.div_add_mod n 10
        have hm : n % 10 < 10 := Nat.mod_lt _ (by omega)
        omega
      rw [if_pos h]
      have hone : decVal [Nat.digitChar (n % 10)] =
          dval (Nat.digitChar (n % 10)) := by
        simp [decVal]
      rw [hone, Nat.mod_eq_of_lt h10]
      exact dval_digitChar n h10
    · have hn : 0 < n := by
        rcases Nat.eq_zero_or_pos n with h0 | h0
        · subst h0; simp at h
        · exact h0
      have hdiv : n / 10 < n := Nat.div_lt_self hn (by omega)
      simp only [if_neg h]
      rw [toDigitsCore_append, decVal_append_one,
        ih (n / 10) hdiv f (by omega),
        dval_digitChar (n % 10) (Nat.mod_lt _ (by omega))]
      omega

/-- The decimal rendering str(counter) used by the conflict loop is
injective: distinct counters give distinct strings. -/
theorem repr_inj {a b : Nat} (h : Nat.repr a = Nat.repr b) : a = b := by
  have hd : Nat.toDigits 10 a = Nat.toDigits 10 b := by
    have h2 := congrArg String.data h
    simpa [Nat.repr, List.asString] using h2
  have ha := decVal_toDigitsCore a (a + 1) (Nat.lt_succ_self a)
  have hb := decVal_toDigitsCore b (b + 1) (Nat.lt_succ_self b)
  unfold Nat.toDigits at hd
  rw [← ha, ← hb, hd]

theorem dropWhile_head_false {p : Char → Bool} : ∀ (l r : List Char) (d : Char),
    l.dropWhile p = d :: r → p d = false := by
  intro l
  induction l with
  | nil => intro r d h; simp [List.dropWhile] at h
  | cons a tl ih =>
    intro r d h
    by_cases hp : p a = true
    · rw [List.dropWhile_cons_of_pos hp] at h; exact ih r d h
    · rw [List.dropWhile_cons_of_neg hp] at h
      obtain ⟨rfl, -⟩ := List.cons.inj h
      simpa using hp

/-- os.path.splitext loses nothing: root ++ ext is the input name. -/
theorem splitextName_recombine (s : String) :
    (splitextName s).1 ++ (splitextName s).2 = s := by
  cases hdw : s.data.reverse.dropWhile (fun c => ¬ c = '.') with
  | nil =>
    have hm : splitextName s = (s, "") := by
      simp only [splitextName, List.span_eq_take_drop, hdw]
    rw [hm]
    simp
  | cons dot before =>
    by_cases hany : (before.any (fun c => ¬ c = '.')) = true
    · have hm : splitextName s =
          (String.mk before.reverse,
           String.mk ('.' ::
             (s.data.reverse.takeWhile (fun c => ¬ c = '.')).reverse)) := by
        simp only [splitextName, List.span_eq_take_drop, hdw, if_pos hany]
      rw [hm]
      have hdot : dot = '.' := by
        have h2 := dropWhile_head_false _ _ _ hdw
        simpa using h2
      apply String.ext
      rw [String.data_append]
      show before.reverse ++ '.' ::
        (s.data.reverse.takeWhile (fun c => ¬ c = '.')).reverse = s.data
      calc before.reverse ++ '.' ::
            (s.data.reverse.takeWhile (fun c => ¬ c = '.')).reverse
          = ((s.data.reverse.takeWhile (fun c => ¬ c = '.')) ++
              dot :: before).reverse := by
            rw [hdot]; simp [List.reverse_append]
        _ = s.data.reverse.reverse := by
            rw [← hdw, List.takeWhile_append_dropWhile]
        _ = s.data := List.reverse_reverse _
    · have hm : splitextName s = (s, "") := by
        simp only [splitextName, List.span_eq_take_drop, hdw, if_neg hany]
      rw [hm]
      simp

theorem cand_inj_pos (dst : Path) (base ext : String) {j k : Nat}
    (hj : ¬ j = 0) (hk : ¬ k = 0)
    (h : cand dst base ext j = cand dst base ext k) : j = k := by
  simp only [cand, if_neg hj, if_neg hk] at h
  have h2 := List.append_cancel_left h
  have hs : base ++ "_" ++ Nat.repr j ++ ext =
      base ++ "_" ++ Nat.repr k ++ ext := (List.cons.inj h2).1
  have hd := congrArg String.data hs
  simp only [String.data_append] at hd
  have hd2 := List.append_cancel_right hd
  have hd3 := List.append_cancel_left hd2
  exact repr_inj (String.ext hd3)

theorem cand_zero_ne_pos (dst : Path) (base ext : String) {k : Nat}
    (hk : ¬ k = 0)
    (hbe : splitextName (dst.getLastD "") = (base, ext)) :
    cand dst base ext 0 ≠ cand dst base ext k := by
  intro h
  have h0 : cand dst base ext 0 = dst := by simp [cand]
  have hkk : cand dst base ext k =
      dst.dropLast ++ [base ++ "_" ++ Nat.repr k ++ ext] := by
    simp [cand, hk]
  rw [h0, hkk] at h
  have hrec := splitextName_recombine (dst.getLastD "")
  rw [hbe] at hrec
  have hlast : dst.getLastD "" = base ++ "_" ++ Nat.repr k ++ ext := by
    rw [h]
    simp
  rw [← hrec] at hlast
  have hd := congrArg String.data hlast
  simp only [String.data_append] at hd
  have hd2 := List.append_cancel_right hd
  have hlen := congrArg List.length hd2
  simp at hlen

mutual
theorem pathsEnt_length (pref : Path) (e : Ent) :
    (pathsEnt pref e).length = entCount e := by
  cases e with
  | file n rem sz => rfl
  | afile n rem sz ok ps => rfl
  | dir n cs =>
    simp only [pathsEnt, entCount, List.length_cons,
      pathsEnts_length (pref ++ [n]) cs]
    omega
termination_by sizeOf e

theorem pathsEnts_length (pref : Path) (es : List Ent) :
    (pathsEnts pref es).length = entsCount es := by
  cases es with
  | nil => rfl
  | cons e tl =>
    simp only [pathsEnts, entsCount, List.length_append,
      pathsEnt_length pref e, pathsEnts_length pref tl]
termination_by sizeOf es
end

theorem pathsEnt_subset (pref : Path) {e : Ent} {es : List Ent} (he : e ∈ es) :
    ∀ x, x ∈ pathsEnt pref e → x ∈ pathsEnts pref es := by
  induction es with
  | nil => cases he
  | cons a tl ih =>
    intro x hx
    rcases List.mem_cons.mp he with rfl | h2
    · exact List.mem_append.mpr (Or.inl hx)
    · exact List.mem_append.mpr (Or.inr (ih h2 x hx))

/-- Every path resolving to an entry is one of the finitely many paths
of the tree. -/
theorem lookup_mem_paths : ∀ (q : Path) (es : List Ent) (pref : Path) (e : Ent),
    lookupEnt es q = some e → (pref ++ q) ∈ pathsEnts pref es := by
  intro q
  induction q with
  | nil => intro es pref e h; simp [lookupEnt] at h
  | cons n q2 ih =>
    intro es pref e h
    by_cases hq2 : q2 = []
    · subst hq2
      simp only [lookupEnt] at h
      have hmem := List.mem_of_find?_eq_some h
      have hname : e.name = n := by
        have h2 := List.find?_some h
        simpa using h2
      refine pathsEnt_subset pref hmem _ ?_
      cases e with
      | file m rm sz =>
        simp only [Ent.name] at hname
        subst hname
        simp [pathsEnt]
      | afile m rm sz ok ps =>
        simp only [Ent.name] at hname
        subst hname
        simp [pathsEnt]
      | dir m cs =>
        simp only [Ent.name] at hname
        subst hname
        simp [pathsEnt]
    · rw [lookupEnt_cons₂ _ _ _ hq2] at h
      cases hf : es.find? (fun x => x.name = n) with
      | none => rw [hf] at h; simp at h
      | some x =>
        rw [hf] at h
        cases x with
        | file m rm sz => simp at h
        | afile m rm sz ok ps => simp at h
        | dir m cs =>
          have hname : m = n := by
            have h2 := List.find?_some hf
            simpa [Ent.name] using h2
          subst hname
          have hmem := List.mem_of_find?_eq_some hf
          refine pathsEnt_subset pref hmem _ ?_
          simp only [pathsEnt]
          refine List.mem_cons.mpr (Or.inr ?_)
          have h3 := ih cs (pref ++ [m]) e h
          simpa using h3

/-- The conflict loop cannot run out of names: among the first
entsCount fs + 1 candidates one does not exist, because the candidates
are pairwise distinct paths and the tree has only entsCount fs
entries. -/
theorem exists_free_cand (fs : FS) (dst : Path) (base ext : String)
    (hdst : dst ≠ [])
    (hbe : splitextName (dst.getLastD "") = (base, ext)) :
    ∃ m, m ≤ entsCount fs ∧ existsPath fs (cand dst base ext m) = false := by
  by_contra hcon
  push_neg at hcon
  have hall : ∀ m, m ≤ entsCount fs →
      existsPath fs (cand dst base ext m) = true := by
    intro m hm
    have h2 := hcon m hm
    cases hx : existsPath fs (cand dst base ext m) with
    | false => exact absurd hx h2
    | true => rfl
  have hnodup : ((List.range (entsCount fs + 1)).map
      (cand dst base ext)).Nodup := by
    refine List.Nodup.map_on ?_ (List.nodup_range _)
    intro x hx y hy hxy
    by_cases hx0 : x = 0
    · by_cases hy0 : y = 0
      · rw [hx0, hy0]
      · subst hx0
        exact absurd hxy (cand_zero_ne_pos dst base ext hy0 hbe)
    · by_cases hy0 : y = 0
      · subst hy0
        exact absurd hxy.symm (cand_zero_ne_pos dst base ext hx0 hbe)
      · exact cand_inj_pos dst base ext hx0 hy0 hxy
  have hsub : ∀ x ∈ (List.range (entsCount fs + 1)).map (cand dst base ext),
      x ∈ pathsEnts [] fs := by
    intro x hxm
    obtain ⟨m, hmr, rfl⟩ := List.mem_map.mp hxm
    have hm : m ≤ entsCount fs := by
      have h4 := List.mem_range.mp hmr
      omega
    have hex := hall m hm
    have hgne : cand dst base ext m ≠ [] := cand_ne_nil dst base ext m hdst
    rw [existsPath_ne_nil _ _ hgne] at hex
    cases hlk : lookupEnt fs (cand dst base ext m) with
    | none => rw [hlk] at hex; simp at hex
    | some e =>
      have h3 := lookup_mem_paths (cand dst base ext m) fs [] e hlk
      simpa using h3
  have hle := List.Subperm.length_le
    (List.subperm_of_subset hnodup (fun x hx => hsub x hx))
  rw [List.length_map, List.length_range, pathsEnts_length] at hle
  omega

/-- C6: move_file with an occupied destination walks the candidates
dst, base_1 ext, base_2 ext, … in order, appending an incrementing
numeric suffix before the extension, moves the source to the first
free name, and never overwrites: every pre-existing file off the
source and the chosen name is unchanged. -/
theorem move_file_appends_suffix
    (fs : FS) (src dst : Path) (e : Ent) (base ext : String) (cs : List Ent)
    (hsrc : lookupEnt fs src = some e) (hdir : e.isDir = false)
    (hne : is_empty fs src = false)
    (hdst : dst ≠ [])
    (hbe : splitextName (dst.getLastD "") = (base, ext))
    (hpar : childrenAt fs dst.dropLast = some cs) :
    ∃ k fs2,
      move_file fs src dst = (true, fs2) ∧
      (∀ j, j < k → existsPath fs (cand dst base ext j) = true) ∧
      existsPath fs (cand dst base ext k) = false ∧
      lookupEnt fs2 (cand dst base ext k) =
        some (e.rename ((cand dst base ext k).getLastD "")) ∧
      (∀ q e2, lookupEnt fs q = some e2 → e2.isDir = false → q ≠ src →
        (∀ r, q ≠ cand dst base ext k ++ r) →
        lookupEnt fs2 q = some e2) := by
  have hsrcne : src ≠ [] := by
    intro hc; rw [hc] at hsrc; simp [lookupEnt] at hsrc
  have hfree : ∃ m, m ≤ entsCount fs ∧
      existsPath fs (cand dst base ext m) = false :=
    exists_free_cand fs dst base ext hdst hbe
  obtain ⟨m0, hm0, hmfree⟩ := hfree
  obtain ⟨d, hd⟩ := findFree_total fs dst base ext (entsCount fs + 1) 0
    ⟨m0, by omega, by omega, hmfree⟩
  obtain ⟨k, _, hdk, hkfree, hkpre⟩ := findFree_from fs dst base ext _ 0 d hd
  subst hdk
  have hcne : cand dst base ext k ≠ [] := cand_ne_nil dst base ext k hdst
  have hcsplit : (cand dst base ext k) =
      dst.dropLast ++ [(cand dst base ext k).getLastD ""] := by
    conv_lhs => rw [← dropLast_concat_getLastD _ hcne]
    rw [cand_dropLast]
  set nd := (cand dst base ext k).getLastD "" with hnd
  set e2 := e.rename nd with he2
  set X := removePath fs src with hX
  set fs2 := updateAt dst.dropLast (fun es => place1 e2 es) X with hfs2
  have hmove : shutilMove fs src (cand dst base ext k) = some fs2 := by
    simp only [shutilMove, hsrc, cand_dropLast, Option.some_inj]
  have hmf : move_file fs src dst = (true, fs2) := by
    rw [cand_zero] at hd
    have hd2 : findFree fs dst.dropLast base ext (entsCount fs + 1) 1 dst =
        some (cand dst base ext k) := by
      simpa using hd
    simp only [move_file, hne, Bool.false_eq_true, if_false,
      makedirs_noop dst.dropLast fs cs hpar, hbe, hd2, hmove]
  have hXpar : (childrenAt X dst.dropLast).isSome = true :=
    childrenAt_removePath_isSome src fs dst.dropLast hsrc hdir
      (by rw [hpar]; rfl)
  obtain ⟨csX, hcsX⟩ := Option.isSome_iff_exists.1 hXpar
  have hland : lookupEnt fs2 (cand dst base ext k) = some e2 := by
    have hin := lookupEnt_updateAt_inside dst.dropLast
      [nd] (fun es => place1 e2 es) X csX hcsX (by simp)
    rw [← hcsplit] at hin
    rw [hfs2, hin]
    simp only [lookupEnt]
    have hname : nd = e2.name := by rw [he2, name_rename]
    rw [hname]
    exact find?_place1_self e2 csX
  refine ⟨k, fs2, hmf, fun j hj => hkpre j (by omega) hj, hkfree, hland, ?_⟩
  intro q e3 hq hq3 hqs hqc
  -- step 1: the removal of src does not touch q
  have hstep1 : lookupEnt X q = some e3 := by
    by_cases hrel : ∃ r, r ≠ [] ∧ q = src.dropLast ++ r
    · obtain ⟨r, hr, hqr⟩ := hrel
      cases r with
      | nil => exact absurd rfl hr
      | cons rh rt =>
        by_cases hrh : rh = src.getLastD ""
        · subst hrh
          cases rt with
          | nil =>
            exfalso
            apply hqs
            rw [hqr, dropLast_concat_getLastD src hsrcne]
          | cons a b =>
            exfalso
            have hq2 : q = src ++ (a :: b) := by
              rw [hqr, ← dropLast_concat_getLastD src hsrcne]
              simp
            rw [hq2, lookupEnt_append _ _ _ (by simp),
              childrenAt_none_of_nondir fs src hsrc hdir] at hq
            simp at hq
        · obtain ⟨cs1, hcs1, _⟩ := childrenAt_dropLast_of_lookup hsrc
          have hin := lookupEnt_updateAt_inside src.dropLast (rh :: rt)
            (removeName (src.getLastD "")) fs cs1 hcs1 (by simp)
          rw [hX]
          unfold removePath
          rw [hqr, hin, lookup_removeName_ne _ _ _ (by simp)
            (by simpa using hrh)]
          rw [hqr, lookupEnt_append _ _ _ (by simp), hcs1] at hq
          exact hq
    · have hsd : src.dropLast ≠ [] := by
        intro hc
        apply hrel
        refine ⟨q, ?_, by rw [hc]; rfl⟩
        intro hc2; rw [hc2] at hq; simp [lookupEnt] at hq
      rw [hX]
      unfold removePath
      refine lookupEnt_updateAt_frame src.dropLast _ hsd fs q e3 hq hq3 ?_
      intro r hr hc
      exact hrel ⟨r, hr, hc⟩
  -- step 2: the placement at the free candidate does not touch q
  by_cases hrel2 : ∃ r, r ≠ [] ∧ q = dst.dropLast ++ r
  · obtain ⟨r, hr, hqr⟩ := hrel2
    cases r with
    | nil => exact absurd rfl hr
    | cons rh rt =>
      by_cases hrh : rh = nd
      · exfalso
        apply hqc rt
        rw [hqr, hrh, hcsplit]
        simp
      · have hin := lookupEnt_updateAt_inside dst.dropLast
          (rh :: rt) (fun es => place1 e2 es) X csX hcsX (by simp)
        rw [hfs2, hqr, hin, lookup_place1_ne _ _ _ (by simp)
          (by simp only [List.headD_cons]
              rw [he2, name_rename]
              exact hrh)]
        have hstep1b := hstep1
        rw [hqr, lookupEnt_append _ _ _ (by simp), hcsX] at hstep1b
        exact hstep1b
  · have hdd : dst.dropLast ≠ [] := by
      intro hc
      apply hrel2
      refine ⟨q, ?_, by rw [hc]; rfl⟩
      intro hc2; rw [hc2] at hq; simp [lookupEnt] at hq
    rw [hfs2]
    refine lookupEnt_updateAt_frame dst.dropLast _ hdd X q e3 hstep1 hq3 ?_
    intro r hr hc
    exact hrel2 ⟨r, hr, hc⟩

theorem applyFirst_no_match {es : List Ent} {n : String} {g : Ent → Ent}
    (h : es.find? (fun v => v.name = n) = none) : applyFirst n g es = es := by
  induction es with
  | nil => rfl
  | cons v tl ih =>
    by_cases hv : v.name = n
    · rw [List.find?_cons_of_pos _ (by simpa using hv)] at h; simp at h
    · rw [List.find?_cons_of_neg _ (by simpa using hv)] at h
      simp only [applyFirst, if_neg hv, ih h]

theorem lookupEnt_updateAt_broken (d : Path) (f : List Ent → List Ent) :
    ∀ (fs : FS) (r : Path), r ≠ [] → childrenAt fs d = none →
      lookupEnt (updateAt d f fs) (d ++ r) = none := by
  induction d with
  | nil => intro fs r _ h; simp [childrenAt] at h
  | cons n d2 ih =>
    intro fs r hr hc
    simp only [childrenAt] at hc
    have hr2 : d2 ++ r ≠ [] := by simp [hr]
    simp only [updateAt, List.cons_append, lookupEnt_cons₂ _ _ _ hr2]
    cases hf : fs.find? (fun e => e.name = n) with
    | none =>
      rw [applyFirst_no_match hf, hf]
    | some x =>
      rw [hf] at hc
      cases x with
      | file nm rm szx =>
        rw [applyFirst_found_id hf rfl, hf]
      | afile nm rm szx okx psx =>
        rw [applyFirst_found_id hf rfl, hf]
      | dir m cs =>
        have hpres : ∀ x : Ent, x.name = n → (match x with
            | Ent.dir mm cs => Ent.dir mm (updateAt d2 f cs)
            | x => x).name = n := by
          intro x hx; cases x <;> simpa [Ent.name] using hx
        rw [find?_applyFirst_self _ _ _ hpres, hf]
        simp only [Option.map_some']
        exact ih cs r hr hc

/-- Deleting the entry at a nonempty path always leaves nothing
there. -/
theorem removePath_clears (fs : FS) (p : Path) (hp : p ≠ []) :
    lookupEnt (removePath fs p) p = none := by
  have hsplit := dropLast_concat_getLastD p hp
  cases hc : childrenAt fs p.dropLast with
  | none =>
    have := lookupEnt_updateAt_broken p.dropLast
      (removeName (p.getLastD "")) fs [p.getLastD ""] (by simp) hc
    rw [hsplit] at this
    exact this
  | some cs =>
    have hmain : lookupEnt (updateAt p.dropLast
        (removeName (p.getLastD "")) fs) (p.dropLast ++ [p.getLastD ""]) =
        none := by
      rw [lookupEnt_updateAt_inside _ _ _ _ _ hc (by simp), lookupEnt,
        find?_removeName_self]
    rw [hsplit] at hmain
    exact hmain

/-! ### Claim C4 -/

/-- C4 counterexample: on a zero-length input bearing an archive
format, ArchiveHandler.extract reports failure (false), not a no-op
success, and the empty file is left in place, not deleted — the code
returns False before the deletion step.  This contradicts the claim
that an empty input is deleted and treated as a success. -/
theorem extract_empty_counterexample :
    extract [Ent.afile "e.zip" true 0 true []] ["e.zip"] [] =
      (some false, [Ent.afile "e.zip" true 0 true []]) ∧
    existsPath (extract [Ent.afile "e.zip" true 0 true []] ["e.zip"] []).2
      ["e.zip"] = true :=
  ⟨rfl, rfl⟩

/-- C4 (amended): a zero-length input file is never passed to the
codec: ArchiveHandler.extract returns immediately with false, leaving
the filesystem, and in particular the empty file itself, untouched. -/
theorem extract_empty_input (fs : FS) (p dest : Path)
    (h : is_empty fs p = true) : extract fs p dest = (some false, fs) := by
  simp [extract, h]

/-- Witness for extract_empty_input at a concrete empty archive file. -/
theorem extract_empty_input_witness :
    is_empty [Ent.afile "e.zip" true 0 true []] ["e.zip"] = true ∧
    extract [Ent.afile "e.zip" true 0 true []] ["e.zip"] [] =
      (some false, [Ent.afile "e.zip" true 0 true []]) :=
  ⟨rfl, extract_empty_input [Ent.afile "e.zip" true 0 true []] ["e.zip"] [] rfl⟩

/-! ### Claim C5 -/

/-- C5: ArchiveHandler.extract on a non-empty archive file deletes the
original file in both outcomes — successful decode and failed decode —
and returns true exactly when the decode itself succeeded (the ok flag
of the archive). -/
theorem extract_deletes_input (fs : FS) (p dest : Path) (n : String)
    (rem : Bool) (sz : Nat) (ok : Bool) (ps : List Ent)
    (hlook : lookupEnt fs p = some (.afile n rem sz ok ps))
    (hsz : ¬ sz = 0) (hrem : rem = true) :
    (extract fs p dest).1 = some ok ∧
    existsPath (extract fs p dest).2 p = false := by
  subst hrem
  have hp : p ≠ [] := by
    intro hc; rw [hc] at hlook; simp [lookupEnt] at hlook
  have hszb : sz.beq 0 = false := by
    cases h : sz.beq 0 with
    | false => rfl
    | true => exact absurd (Nat.eq_of_beq_eq_true h) hsz
  have hemp : is_empty fs p = false := by
    simp [is_empty, hlook, hszb]
  cases hok : ok with
  | true =>
    have hext : extract fs p dest =
        (some true, removePath (updateAt dest (mergeEnts ps) fs) p) := by
      simp [extract, hemp, hlook, hok]
    rw [hext]
    exact ⟨rfl, by rw [existsPath_ne_nil _ _ hp, removePath_clears _ _ hp]; rfl⟩
  | false =>
    have hext : extract fs p dest = (some false, removePath fs p) := by
      simp [extract, hemp, hlook, hok]
    rw [hext]
    exact ⟨rfl, by rw [existsPath_ne_nil _ _ hp, removePath_clears _ _ hp]; rfl⟩

/-- Witness for extract_deletes_input: a concrete corrupt archive is
deleted and reported as failed. -/
theorem extract_deletes_input_witness :
    lookupEnt [Ent.afile "c.zip" true 7 false []] ["c.zip"] =
      some (.afile "c.zip" true 7 false []) ∧ ¬ (7 : Nat) = 0 ∧
    (extract [Ent.afile "c.zip" true 7 false []] ["c.zip"] ["out"]).1 =
      some false ∧
    existsPath (extract [Ent.afile "c.zip" true 7 false []] ["c.zip"]
      ["out"]).2 ["c.zip"] = false := by
  refine ⟨rfl, by decide, ?_⟩
  exact extract_deletes_input [Ent.afile "c.zip" true 7 false []] ["c.zip"]
    ["out"] "c.zip" true 7 false [] rfl (by decide) rfl

/-! ### Claim C2 -/

theorem allSome_map_some : ∀ rs : List Bool, allSome (rs.map some) = some rs := by
  intro rs
  induction rs with
  | nil => rfl
  | cons b tl ih => simp [allSome, ih]

/-- C2 counterexample: a batch over a corrupt archive whose deletion
also fails, followed by a good archive.  The failed job raises out of
batch_extract (result none) even though the worklist shows the sibling
job for good.zip still ran and succeeded (slot some true) — there is
no per-job exception boundary turning the failure into a false entry
of the result list. -/
theorem batch_extract_exception_counterexample :
    (batch_extract 5
      [Ent.dir "d" [], Ent.afile "bad.zip" false 5 false [],
       Ent.afile "good.zip" true 5 true [Ent.file "x.txt" true 3]]
      [["bad.zip"], ["good.zip"]] ["d"]).1 = none ∧
    (batchRun 5
      [Ent.dir "d" [], Ent.afile "bad.zip" false 5 false [],
       Ent.afile "good.zip" true 5 true [Ent.file "x.txt" true 3]]
      [["bad.zip"], ["good.zip"]] ["d"]).1 = [none, some true] :=
  ⟨rfl, rfl⟩

/-- C2 (amended): when every file in the tree is removable —
os.remove cannot fail — no exception escapes any job, and
batch_extract returns a list of booleans with one entry per input
path. -/
theorem batch_extract_total_of_removable (fuel : Nat) (fs : FS)
    (paths : List Path) (dest : Path) (h : removableEnts fs = true) :
    ∃ rs : List Bool, (batch_extract fuel fs paths dest).1 = some rs ∧
      rs.length = paths.length := by
  obtain ⟨rs, hrs, hlen⟩ := batchRun_no_exc fuel fs paths dest h
  refine ⟨rs, ?_, hlen⟩
  simp only [batch_extract, hrs, allSome_map_some]

/-- Witness for batch_extract_total_of_removable on a concrete
two-job batch. -/
theorem batch_extract_total_of_removable_witness :
    removableEnts
      [Ent.dir "d" [], Ent.afile "a.zip" true 5 true [Ent.file "x.txt" true 3],
       Ent.afile "b.zip" true 5 false []] = true ∧
    ∃ rs : List Bool, (batch_extract 6
      [Ent.dir "d" [], Ent.afile "a.zip" true 5 true [Ent.file "x.txt" true 3],
       Ent.afile "b.zip" true 5 false []]
      [["a.zip"], ["b.zip"]] ["d"]).1 = some rs ∧ rs.length = 2 :=
  ⟨rfl, batch_extract_total_of_removable 6
      [Ent.dir "d" [], Ent.afile "a.zip" true 5 true [Ent.file "x.txt" true 3],
       Ent.afile "b.zip" true 5 false []]
      [["a.zip"], ["b.zip"]] ["d"] rfl⟩

/-! ### Claim C8 -/

/-- C8 counterexample: two archives extracted in one batch to the
shared destination d.  Both payloads land as direct children of that
one directory — no per-job subdirectory is created, so the claim that
each job gets a private subfolder of the destination is false. -/
theorem batch_shared_destination_counterexample :
    batch_extract 5
      [Ent.dir "d" [], Ent.afile "a.zip" true 5 true [Ent.file "x.txt" true 3],
       Ent.afile "b.zip" true 5 true [Ent.file "y.txt" true 3]]
      [["a.zip"], ["b.zip"]] ["d"] =
    (some [true, true],
     [Ent.dir "d" [Ent.file "x.txt" true 3, Ent.file "y.txt" true 3]]) :=
  rfl

/-- A two-archive batch into a shared destination directory: both
payload files land side by side as direct children of that one
directory, and both archive inputs are consumed. -/
theorem batch_shared_run (fuel : Nat) (d z1 z2 p1 p2 : String) (s1 s2 t1 t2 : Nat)
    (hs1 : ¬ s1 = 0) (hs2 : ¬ s2 = 0)
    (hdz1 : ¬ d = z1) (hdz2 : ¬ d = z2) (hz21 : ¬ z2 = z1)
    (hp12 : ¬ p1 = p2) :
    batch_extract fuel
      [Ent.dir d [], Ent.afile z1 true s1 true [Ent.file p1 true t1],
       Ent.afile z2 true s2 true [Ent.file p2 true t2]]
      [[z1], [z2]] [d] =
    (some [true, true],
     [Ent.dir d [Ent.file p1 true t1, Ent.file p2 true t2]]) := by
  have hsb1 : s1.beq 0 = false := by
    cases hx : s1.beq 0 with
    | false => rfl
    | true => exact absurd (Nat.eq_of_beq_eq_true hx) hs1
  have hsb2 : s2.beq 0 = false := by
    cases hx : s2.beq 0 with
    | false => rfl
    | true => exact absurd (Nat.eq_of_beq_eq_true hx) hs2
  have hlookz1 : lookupEnt
      [Ent.dir d [], Ent.afile z1 true s1 true [Ent.file p1 true t1],
       Ent.afile z2 true s2 true [Ent.file p2 true t2]] [z1] =
      some (Ent.afile z1 true s1 true [Ent.file p1 true t1]) := by
    simp [lookupEnt, Ent.name, hdz1]
  have hex1 : existsPath
      [Ent.dir d [], Ent.afile z1 true s1 true [Ent.file p1 true t1],
       Ent.afile z2 true s2 true [Ent.file p2 true t2]] [z1] = true := by
    simp [existsPath, hlookz1]
  have harch1 : is_archive
      [Ent.dir d [], Ent.afile z1 true s1 true [Ent.file p1 true t1],
       Ent.afile z2 true s2 true [Ent.file p2 true t2]] [z1] = true := by
    simp [is_archive, hlookz1]
  have hemp1 : is_empty
      [Ent.dir d [], Ent.afile z1 true s1 true [Ent.file p1 true t1],
       Ent.afile z2 true s2 true [Ent.file p2 true t2]] [z1] = false := by
    simp [is_empty, hlookz1, hsb1]
  have hextract1 : extract
      [Ent.dir d [], Ent.afile z1 true s1 true [Ent.file p1 true t1],
       Ent.afile z2 true s2 true [Ent.file p2 true t2]] [z1] [d] =
      (some true,
       [Ent.dir d [Ent.file p1 true t1],
        Ent.afile z2 true s2 true [Ent.file p2 true t2]]) := by
    simp [extract, hemp1, hlookz1, updateAt, applyFirst, mergeEnts, mergeEnt,
      place1, removePath, removeName, Ent.name, hdz1, hz21]
  have hchdB : childrenAt
      [Ent.dir d [Ent.file p1 true t1],
       Ent.afile z2 true s2 true [Ent.file p2 true t2]] [d] =
      some [Ent.file p1 true t1] := by
    simp [childrenAt, Ent.name]
  have hfauB : findArchUnder
      [Ent.dir d [Ent.file p1 true t1],
       Ent.afile z2 true s2 true [Ent.file p2 true t2]] [d] = none := by
    simp [findArchUnder, hchdB, findArchEnts, findArchEnt]
  have hresB : ∀ fx, rescan fx
      [Ent.dir d [Ent.file p1 true t1],
       Ent.afile z2 true s2 true [Ent.file p2 true t2]] [d] =
      (some (),
       [Ent.dir d [Ent.file p1 true t1],
        Ent.afile z2 true s2 true [Ent.file p2 true t2]]) := by
    intro fx
    cases fx with
    | zero => rfl
    | succ fy => simp [rescan, hfauB]
  have hefr1 : extract_files_recursive fuel
      [Ent.dir d [], Ent.afile z1 true s1 true [Ent.file p1 true t1],
       Ent.afile z2 true s2 true [Ent.file p2 true t2]] [z1] [d] =
      (some true,
       [Ent.dir d [Ent.file p1 true t1],
        Ent.afile z2 true s2 true [Ent.file p2 true t2]]) := by
    simp only [extract_files_recursive, hex1, harch1, hextract1, hresB fuel,
      not_true, Bool.true_eq_false, not_false_eq_true, if_false, if_true,
      Bool.not_true, Bool.false_eq_true]
  have hlookz2 : lookupEnt
      [Ent.dir d [Ent.file p1 true t1],
       Ent.afile z2 true s2 true [Ent.file p2 true t2]] [z2] =
      some (Ent.afile z2 true s2 true [Ent.file p2 true t2]) := by
    simp [lookupEnt, Ent.name, hdz2]
  have hex2 : existsPath
      [Ent.dir d [Ent.file p1 true t1],
       Ent.afile z2 true s2 true [Ent.file p2 true t2]] [z2] = true := by
    simp [existsPath, hlookz2]
  have harch2 : is_archive
      [Ent.dir d [Ent.file p1 true t1],
       Ent.afile z2 true s2 true [Ent.file p2 true t2]] [z2] = true := by
    simp [is_archive, hlookz2]
  have hemp2 : is_empty
      [Ent.dir d [Ent.file p1 true t1],
       Ent.afile z2 true s2 true [Ent.file p2 true t2]] [z2] = false := by
    simp [is_empty, hlookz2, hsb2]
  have hextract2 : extract
      [Ent.dir d [Ent.file p1 true t1],
       Ent.afile z2 true s2 true [Ent.file p2 true t2]] [z2] [d] =
      (some true,
       [Ent.dir d [Ent.file p1 true t1, Ent.file p2 true t2]]) := by
    simp [extract, hemp2, hlookz2, updateAt, applyFirst, mergeEnts, mergeEnt,
      place1, removePath, removeName, Ent.name, hdz2, hp12]
  have hchdC : childrenAt
      [Ent.dir d [Ent.file p1 true t1, Ent.file p2 true t2]] [d] =
      some [Ent.file p1 true t1, Ent.file p2 true t2] := by
    simp [childrenAt, Ent.name]
  have hfauC : findArchUnder
      [Ent.dir d [Ent.file p1 true t1, Ent.file p2 true t2]] [d] =
      none := by
    simp [findArchUnder, hchdC, findArchEnts, findArchEnt]
  have hresC : ∀ fx, rescan fx
      [Ent.dir d [Ent.file p1 true t1, Ent.file p2 true t2]] [d] =
      (some (), [Ent.dir d [Ent.file p1 true t1, Ent.file p2 true t2]]) := by
    intro fx
    cases fx with
    | zero => rfl
    | succ fy => simp [rescan, hfauC]
  have hefr2 : extract_files_recursive fuel
      [Ent.dir d [Ent.file p1 true t1],
       Ent.afile z2 true s2 true [Ent.file p2 true t2]] [z2] [d] =
      (some true,
       [Ent.dir d [Ent.file p1 true t1, Ent.file p2 true t2]]) := by
    simp only [extract_files_recursive, hex2, harch2, hextract2, hresC fuel,
      not_true, Bool.true_eq_false, not_false_eq_true, if_false, if_true,
      Bool.not_true, Bool.false_eq_true]
  simp only [batch_extract, batchRun, hefr1, hefr2, List.foldl_nil, allSome,
    Option.map_some']

/-- C8 (amended): the coordinator passes the raw shared destination
verbatim to every job and no job-private subdirectory is ever
created: for every destination directory name, archive names and
payload names, a two-archive batch deposits both payload files as
direct siblings in the one shared destination directory. -/
theorem batch_shared_destination (fuel : Nat) (d z1 z2 p1 p2 : String)
    (s1 s2 t1 t2 : Nat)
    (hs1 : ¬ s1 = 0) (hs2 : ¬ s2 = 0)
    (hdz1 : ¬ d = z1) (hdz2 : ¬ d = z2) (hz21 : ¬ z2 = z1)
    (hp12 : ¬ p1 = p2) :
    batch_extract fuel
      [Ent.dir d [], Ent.afile z1 true s1 true [Ent.file p1 true t1],
       Ent.afile z2 true s2 true [Ent.file p2 true t2]]
      [[z1], [z2]] [d] =
    (some [true, true],
     [Ent.dir d [Ent.file p1 true t1, Ent.file p2 true t2]]) ∧
    childrenAt (batch_extract fuel
      [Ent.dir d [], Ent.afile z1 true s1 true [Ent.file p1 true t1],
       Ent.afile z2 true s2 true [Ent.file p2 true t2]]
      [[z1], [z2]] [d]).2 [d] =
      some [Ent.file p1 true t1, Ent.file p2 true t2] := by
  have h1 := batch_shared_run fuel d z1 z2 p1 p2 s1 s2 t1 t2
    hs1 hs2 hdz1 hdz2 hz21 hp12
  refine ⟨h1, ?_⟩
  rw [h1]
  simp [childrenAt, Ent.name]

/-- Witness for batch_shared_destination on the concrete a.zip/b.zip
batch into d. -/
theorem batch_shared_destination_witness :
    ¬ (5 : Nat) = 0 ∧ ¬ ("d" : String) = "a.zip" ∧
    ¬ ("d" : String) = "b.zip" ∧ ¬ ("b.zip" : String) = "a.zip" ∧
    ¬ ("x.txt" : String) = "y.txt" ∧
    (batch_extract 5
      [Ent.dir "d" [],
       Ent.afile "a.zip" true 5 true [Ent.file "x.txt" true 3],
       Ent.afile "b.zip" true 5 true [Ent.file "y.txt" true 3]]
      [["a.zip"], ["b.zip"]] ["d"] =
    (some [true, true],
     [Ent.dir "d" [Ent.file "x.txt" true 3, Ent.file "y.txt" true 3]]) ∧
    childrenAt (batch_extract 5
      [Ent.dir "d" [],
       Ent.afile "a.zip" true 5 true [Ent.file "x.txt" true 3],
       Ent.afile "b.zip" true 5 true [Ent.file "y.txt" true 3]]
      [["a.zip"], ["b.zip"]] ["d"]).2 ["d"] =
      some [Ent.file "x.txt" true 3, Ent.file "y.txt" true 3]) :=
  ⟨by decide, by decide, by decide, by decide, by decide,
   batch_shared_destination 5 "d" "a.zip" "b.zip" "x.txt" "y.txt" 5 5 3 3
     (by decide) (by decide) (by decide) (by decide) (by decide)
     (by decide)⟩

/-! ### Claim C7 -/

/-- C7 counterexample: organizing r where r/a/b/f.txt is the only
file.  b is removed (emptied by the move and caught by its own
delete_if_empty visit later in the walk), but a — emptied only after
its snapshot was taken, because os.walk is top-down — survives as an
empty directory inside r. -/
theorem move_files_leaves_empty_dir_counterexample :
    move_files [Ent.dir "r" [Ent.dir "a" [Ent.dir "b"
        [Ent.file "f.txt" true 1]]]] ["r"] =
      [Ent.dir "r" [Ent.dir "a" [], Ent.file "f.txt" true 1]] ∧
    childrenAt (move_files [Ent.dir "r" [Ent.dir "a" [Ent.dir "b"
        [Ent.file "f.txt" true 1]]]] ["r"]) ["r", "a"] = some [] :=
  ⟨rfl, rfl⟩

/-- FileManager.move_files on the nested skeleton root/a/b/f: the walk
visits root and a while their subtrees are still intact, moves f to
the top at the visit of b, then removes the emptied b — but never
revisits a. -/
theorem organize_top_down_run (root a b f : String) (s : Nat)
    (hs : ¬ s = 0)
    (hcanon : pstem f ++ strLower (psuffix f) = f)
    (haf : ¬ a = f) :
    move_files [Ent.dir root [Ent.dir a [Ent.dir b [Ent.file f true s]]]]
        [root] =
      [Ent.dir root [Ent.dir a [], Ent.file f true s]] := by
  have hsb : s.beq 0 = false := by
    cases hx : s.beq 0 with
    | false => rfl
    | true => exact absurd (Nat.eq_of_beq_eq_true hx) hs
  have hex_root : existsPath
      [Ent.dir root [Ent.dir a [Ent.dir b [Ent.file f true s]]]] [root] =
      true := by
    simp [existsPath, lookupEnt, Ent.name]
  have hchr : childrenAt
      [Ent.dir root [Ent.dir a [Ent.dir b [Ent.file f true s]]]] [root] =
      some [Ent.dir a [Ent.dir b [Ent.file f true s]]] := by
    simp [childrenAt, Ent.name]
  have hcha : childrenAt
      [Ent.dir root [Ent.dir a [Ent.dir b [Ent.file f true s]]]] [root, a] =
      some [Ent.dir b [Ent.file f true s]] := by
    simp [childrenAt, Ent.name]
  have hchb : childrenAt
      [Ent.dir root [Ent.dir a [Ent.dir b [Ent.file f true s]]]]
      [root, a, b] = some [Ent.file f true s] := by
    simp [childrenAt, Ent.name]
  have hwd : walkDirsEnts [root]
      [Ent.dir a [Ent.dir b [Ent.file f true s]]] =
      [[root, a], [root, a, b]] := by
    simp [walkDirsEnts, walkDirsEnt]
  have hfn1 : fileNames [Ent.dir a [Ent.dir b [Ent.file f true s]]] =
      [] := rfl
  have hfn2 : fileNames [Ent.dir b [Ent.file f true s]] = [] := rfl
  have hfn3 : fileNames [Ent.file f true s] = [f] := rfl
  have hpd1 : processDir [root]
      [Ent.dir root [Ent.dir a [Ent.dir b [Ent.file f true s]]]] [root] =
      [Ent.dir root [Ent.dir a [Ent.dir b [Ent.file f true s]]]] := by
    simp only [processDir, hchr, hfn1, List.foldl_nil]
  have hpd2 : processDir [root]
      [Ent.dir root [Ent.dir a [Ent.dir b [Ent.file f true s]]]] [root, a] =
      [Ent.dir root [Ent.dir a [Ent.dir b [Ent.file f true s]]]] := by
    simp only [processDir, hcha, hfn2, List.foldl_nil, hcha]
  have hlookf : lookupEnt
      [Ent.dir root [Ent.dir a [Ent.dir b [Ent.file f true s]]]]
      [root, a, b, f] = some (Ent.file f true s) := by
    simp [lookupEnt, Ent.name]
  have hdel : delete_if_empty
      [Ent.dir root [Ent.dir a [Ent.dir b [Ent.file f true s]]]]
      [root, a, b, f] =
      (false, [Ent.dir root [Ent.dir a [Ent.dir b [Ent.file f true s]]]]) := by
    simp [delete_if_empty, hlookf, hsb]
  have hemp : is_empty
      [Ent.dir root [Ent.dir a [Ent.dir b [Ent.file f true s]]]]
      [root, a, b, f] = false := by
    simp [is_empty, hlookf, hsb]
  have hmk : makedirs [root]
      [Ent.dir root [Ent.dir a [Ent.dir b [Ent.file f true s]]]] =
      some [Ent.dir root [Ent.dir a [Ent.dir b [Ent.file f true s]]]] := by
    simp [makedirs, applyFirst, Ent.name]
  have hlookdst : lookupEnt
      [Ent.dir root [Ent.dir a [Ent.dir b [Ent.file f true s]]]]
      [root, f] = none := by
    simp [lookupEnt, Ent.name, haf]
  have hexdst : existsPath
      [Ent.dir root [Ent.dir a [Ent.dir b [Ent.file f true s]]]]
      [root, f] = false := by
    simp [existsPath, hlookdst]
  have hff : findFree
      [Ent.dir root [Ent.dir a [Ent.dir b [Ent.file f true s]]]] [root]
      (splitextName f).1 (splitextName f).2 5 1 [root, f] =
      some [root, f] := by
    rw [findFree, if_neg (by simp [hexdst])]
  have hsm : shutilMove
      [Ent.dir root [Ent.dir a [Ent.dir b [Ent.file f true s]]]]
      [root, a, b, f] [root, f] =
      some [Ent.dir root [Ent.dir a [Ent.dir b []], Ent.file f true s]] := by
    simp [shutilMove, hlookf, removePath, updateAt, applyFirst, removeName,
      place1, Ent.rename, Ent.name, haf]
  have hmove : move_file
      [Ent.dir root [Ent.dir a [Ent.dir b [Ent.file f true s]]]]
      [root, a, b, f] [root, f] =
      (true, [Ent.dir root [Ent.dir a [Ent.dir b []],
        Ent.file f true s]]) := by
    simp only [move_file, hemp, Bool.false_eq_true, if_false,
      List.dropLast_cons₂, List.dropLast_single, hmk]
    have hgl : ([root, f] : Path).getLastD "" = f := rfl
    have hcount : entsCount
        [Ent.dir root [Ent.dir a [Ent.dir b [Ent.file f true s]]]] + 1 =
        5 := rfl
    simp only [hgl, hcount, hff, hsm]
  have hch_after : childrenAt
      [Ent.dir root [Ent.dir a [Ent.dir b []], Ent.file f true s]]
      [root, a, b] = some [] := by
    simp [childrenAt, Ent.name]
  have hrm2 : removePath
      [Ent.dir root [Ent.dir a [Ent.dir b []], Ent.file f true s]]
      [root, a, b] =
      [Ent.dir root [Ent.dir a [], Ent.file f true s]] := by
    simp [removePath, updateAt, applyFirst, removeName, Ent.name]
  have hpd3 : processDir [root]
      [Ent.dir root [Ent.dir a [Ent.dir b [Ent.file f true s]]]]
      [root, a, b] =
      [Ent.dir root [Ent.dir a [], Ent.file f true s]] := by
    simp only [processDir, hchb, hfn3, List.foldl_cons, List.foldl_nil,
      List.cons_append, List.nil_append, hdel, Bool.false_eq_true, if_false,
      hcanon, hmove, hch_after, List.isEmpty_cons, hrm2]
  rw [move_files, if_neg (by simp [hex_root])]
  simp only [hchr, hwd, List.foldl_cons, List.foldl_nil, hpd1, hpd2, hpd3]

/-- C7 (amended): move_files walks top-down, not bottom-up.  For every
root and directory names, every canonically named file f and every
non-zero size, organizing the root/a/b/f tree moves the file to the
top and removes b, but leaves the directory a behind empty: the
top-down walk snapshots a before its subtree is emptied, so a is never
revisited and an empty subdirectory of the root survives the pass. -/
theorem move_files_top_down (root a b f : String) (s : Nat)
    (hs : ¬ s = 0)
    (hcanon : pstem f ++ strLower (psuffix f) = f)
    (haf : ¬ a = f) :
    move_files [Ent.dir root [Ent.dir a [Ent.dir b [Ent.file f true s]]]]
        [root] =
      [Ent.dir root [Ent.dir a [], Ent.file f true s]] ∧
    childrenAt (move_files [Ent.dir root [Ent.dir a [Ent.dir b
        [Ent.file f true s]]]] [root]) [root, a] = some [] := by
  have h1 := organize_top_down_run root a b f s hs hcanon haf
  refine ⟨h1, ?_⟩
  rw [h1]
  simp [childrenAt, Ent.name]

/-- Witness for move_files_top_down on the concrete r/a/b/f.txt tree
at size 1. -/
theorem move_files_top_down_witness :
    ¬ (1 : Nat) = 0 ∧
    pstem "f.txt" ++ strLower (psuffix "f.txt") = "f.txt" ∧
    ¬ ("a" : String) = "f.txt" ∧
    (move_files [Ent.dir "r" [Ent.dir "a" [Ent.dir "b"
        [Ent.file "f.txt" true 1]]]] ["r"] =
      [Ent.dir "r" [Ent.dir "a" [], Ent.file "f.txt" true 1]] ∧
     childrenAt (move_files [Ent.dir "r" [Ent.dir "a" [Ent.dir "b"
        [Ent.file "f.txt" true 1]]]] ["r"]) ["r", "a"] = some []) :=
  ⟨by decide, rfl, by decide,
   move_files_top_down "r" "a" "b" "f.txt" 1 (by decide) rfl (by decide)⟩

/-! ### Claims C1 and C9 -/

/-- On a subtree free of archive files, a further
extract_files_recursive call on any path strictly below dest is a
no-op: the path holds nothing, a plain file or a directory, so the
probe phase reports false without touching the tree. -/
theorem efr_noop (fuel : Nat) (fs : FS) (dest q d2 : Path)
    (hna : noArchUnder fs dest = true) (hq : q ≠ []) :
    extract_files_recursive fuel fs (dest ++ q) d2 = (some false, fs) := by
  have hqq : dest ++ q ≠ [] := by simp [hq]
  cases hlook : lookupEnt fs (dest ++ q) with
  | none =>
    have hex : existsPath fs (dest ++ q) = false := by
      rw [existsPath_ne_nil _ _ hqq, hlook]; rfl
    simp [extract_files_recursive, hex]
  | some e =>
    have hex : existsPath fs (dest ++ q) = true := by
      rw [existsPath_ne_nil _ _ hqq, hlook]; rfl
    cases e with
    | file nm rm szx =>
      have harch : is_archive fs (dest ++ q) = false := by
        simp [is_archive, hlook]
      simp [extract_files_recursive, hex, harch]
    | dir m cs =>
      have harch : is_archive fs (dest ++ q) = false := by
        simp [is_archive, hlook]
      simp [extract_files_recursive, hex, harch]
    | afile nm rm szx okx psx =>
      exfalso
      rw [lookupEnt_append _ _ _ hq] at hlook
      cases hc : childrenAt fs dest with
      | none => rw [hc] at hlook; simp at hlook
      | some cs =>
        rw [hc] at hlook
        have hsome := findArchEnts_complete hlook dest
        simp only [noArchUnder, findArchUnder, hc] at hna
        rw [Option.isNone_iff_eq_none] at hna
        rw [hna] at hsome
        simp at hsome

/-- C1: with every archive in the tree well behaved (nonzero size,
decodable, removable) and fuel above the total nesting weight,
extract_files_recursive on an archive sitting in the destination
directory succeeds and reaches the fixpoint: no archive file remains
anywhere in the destination subtree, however deeply the input nested
its inner archives. -/
theorem efr_reaches_fixpoint (fuel : Nat) (fs : FS) (dest : Path)
    (n : String) (rem : Bool) (sz : Nat) (ok : Bool) (ps : List Ent)
    (hlook : lookupEnt fs (dest ++ [n]) = some (.afile n rem sz ok ps))
    (hg : goodEnts fs = true) (hnd : ndEnts fs = true)
    (hw : entsWeight fs < fuel) :
    ∃ fs2, extract_files_recursive fuel fs (dest ++ [n]) dest =
        (some true, fs2) ∧ noArchUnder fs2 dest = true := by
  obtain ⟨fs2, h1, _, _, h4⟩ := efr_good fuel fs dest n hlook hg hnd hw
  exact ⟨fs2, h1, h4⟩

/-- Witness for efr_reaches_fixpoint: a two-level nested archive
(a.zip containing b.zip containing c.txt) is fully decoded. -/
theorem efr_reaches_fixpoint_witness :
    lookupEnt [Ent.dir "d" [Ent.afile "a.zip" true 5 true
        [Ent.afile "b.zip" true 4 true [Ent.file "c.txt" true 3]]]]
      (["d"] ++ ["a.zip"]) = some (.afile "a.zip" true 5 true
        [Ent.afile "b.zip" true 4 true [Ent.file "c.txt" true 3]]) ∧
    goodEnts [Ent.dir "d" [Ent.afile "a.zip" true 5 true
        [Ent.afile "b.zip" true 4 true [Ent.file "c.txt" true 3]]]] = true ∧
    ndEnts [Ent.dir "d" [Ent.afile "a.zip" true 5 true
        [Ent.afile "b.zip" true 4 true [Ent.file "c.txt" true 3]]]] = true ∧
    entsWeight [Ent.dir "d" [Ent.afile "a.zip" true 5 true
        [Ent.afile "b.zip" true 4 true [Ent.file "c.txt" true 3]]]] < 9 ∧
    ∃ fs2, extract_files_recursive 9
        [Ent.dir "d" [Ent.afile "a.zip" true 5 true
          [Ent.afile "b.zip" true 4 true [Ent.file "c.txt" true 3]]]]
        (["d"] ++ ["a.zip"]) ["d"] = (some true, fs2) ∧
      noArchUnder fs2 ["d"] = true :=
  ⟨rfl, rfl, rfl, by decide,
   efr_reaches_fixpoint 9
     [Ent.dir "d" [Ent.afile "a.zip" true 5 true
       [Ent.afile "b.zip" true 4 true [Ent.file "c.txt" true 3]]]]
     ["d"] "a.zip" true 5 true
     [Ent.afile "b.zip" true 4 true [Ent.file "c.txt" true 3]]
     rfl rfl rfl (by decide)⟩

/-- C9: extraction is idempotent at the fixpoint.  A successful
extract_files_recursive run on a well-behaved archive lands in a
state whose destination walk reports no archive file at all, and any
further extract_files_recursive call on a path inside the destination
returns false and leaves the tree exactly as it was. -/
theorem efr_idempotent (fuel fuel2 : Nat) (fs : FS) (dest : Path)
    (n : String) (rem : Bool) (sz : Nat) (ok : Bool) (ps : List Ent)
    (hlook : lookupEnt fs (dest ++ [n]) = some (.afile n rem sz ok ps))
    (hg : goodEnts fs = true) (hnd : ndEnts fs = true)
    (hw : entsWeight fs < fuel) :
    ∃ fs2, extract_files_recursive fuel fs (dest ++ [n]) dest =
        (some true, fs2) ∧
      findArchUnder fs2 dest = none ∧
      ∀ q : Path, q ≠ [] →
        extract_files_recursive fuel2 fs2 (dest ++ q) dest =
          (some false, fs2) := by
  obtain ⟨fs2, h1, _, _, h4⟩ := efr_good fuel fs dest n hlook hg hnd hw
  refine ⟨fs2, h1, ?_, fun q hq => efr_noop fuel2 fs2 dest q dest h4 hq⟩
  simpa [noArchUnder, Option.isNone_iff_eq_none] using h4

/-- Witness for efr_idempotent: one-level archive, then a second run
on the produced file is a no-op. -/
theorem efr_idempotent_witness :
    lookupEnt [Ent.dir "o" [Ent.afile "z.zip" true 7 true
        [Ent.file "p.txt" true 2]]]
      (["o"] ++ ["z.zip"]) = some (.afile "z.zip" true 7 true
        [Ent.file "p.txt" true 2]) ∧
    goodEnts [Ent.dir "o" [Ent.afile "z.zip" true 7 true
        [Ent.file "p.txt" true 2]]] = true ∧
    ndEnts [Ent.dir "o" [Ent.afile "z.zip" true 7 true
        [Ent.file "p.txt" true 2]]] = true ∧
    entsWeight [Ent.dir "o" [Ent.afile "z.zip" true 7 true
        [Ent.file "p.txt" true 2]]] < 4 ∧
    ∃ fs2, extract_files_recursive 4
        [Ent.dir "o" [Ent.afile "z.zip" true 7 true
          [Ent.file "p.txt" true 2]]]
        (["o"] ++ ["z.zip"]) ["o"] = (some true, fs2) ∧
      findArchUnder fs2 ["o"] = none ∧
      ∀ q : Path, q ≠ [] →
        extract_files_recursive 4 fs2 (["o"] ++ q) ["o"] =
          (some false, fs2) :=
  ⟨rfl, rfl, rfl, by decide,
   efr_idempotent 4 4
     [Ent.dir "o" [Ent.afile "z.zip" true 7 true [Ent.file "p.txt" true 2]]]
     ["o"] "z.zip" true 7 true [Ent.file "p.txt" true 2]
     rfl rfl rfl (by decide)⟩

/-! ### Claim C3 -/

theorem allSome_eq_map_some : ∀ (xs : List (Option Bool)) (rs : List Bool),
    allSome xs = some rs → xs = rs.map some := by
  intro xs
  induction xs with
  | nil =>
    intro rs h
    simp only [allSome, Option.some_inj] at h
    subst h; rfl
  | cons x tl ih =>
    intro rs h
    cases x with
    | none => simp [allSome] at h
    | some b =>
      simp only [allSome] at h
      cases htl : allSome tl with
      | none => rw [htl] at h; simp at h
      | some l =>
        rw [htl] at h
        simp only [Option.map_some', Option.some_inj] at h
        subst h
        simp [ih l htl]

theorem batchRun_length (fuel : Nat) (dest : Path) :
    ∀ (paths : List Path) (fs : FS),
      (batchRun fuel fs paths dest).1.length = paths.length := by
  intro paths
  induction paths with
  | nil => intro fs; rfl
  | cons p ps ih => intro fs; simp only [batchRun, List.length_cons, ih]

theorem batchRun_slot (fuel : Nat) (dest : Path) :
    ∀ (paths : List Path) (fs : FS) (i : Nat), i < paths.length →
      (batchRun fuel fs paths dest).1.getD i none =
        (extract_files_recursive fuel
          (batchRun fuel fs (paths.take i) dest).2
          (paths.getD i []) dest).1 := by
  intro paths
  induction paths with
  | nil => intro fs i h; simp at h
  | cons p ps ih =>
    intro fs i h
    cases i with
    | zero => simp [batchRun]
    | succ i2 =>
      have h2 : i2 < ps.length := by simpa using h
      simp only [batchRun, List.getD_cons_succ, List.take_succ_cons,
        List.getD_cons_succ]
      exact ih (extract_files_recursive fuel fs p dest).2 i2 h2

theorem getD_map_some (rs : List Bool) : ∀ i, i < rs.length →
    (rs.map some).getD i none = some (rs.getD i false) := by
  induction rs with
  | nil => intro i h; simp at h
  | cons b tl ih =>
    intro i h
    cases i with
    | zero => rfl
    | succ j => exact ih j (by simpa using h)

/-- C3: whenever batch_extract hands its caller a result list at all,
that list has exactly one boolean per input path and its i-th entry
is the outcome of running extract_files_recursive on the i-th input
path (in the state the earlier jobs produced): results are
positionally aligned with the inputs. -/
theorem batch_extract_ordered (fuel : Nat) (fs : FS) (paths : List Path)
    (dest : Path) (rs : List Bool)
    (h : (batch_extract fuel fs paths dest).1 = some rs) :
    rs.length = paths.length ∧
    ∀ i, i < paths.length →
      some (rs.getD i false) =
        (extract_files_recursive fuel
          (batchRun fuel fs (paths.take i) dest).2
          (paths.getD i []) dest).1 := by
  have hb : allSome (batchRun fuel fs paths dest).1 = some rs := h
  have hmap := allSome_eq_map_some _ _ hb
  have hlen : rs.length = paths.length := by
    have hL := batchRun_length fuel dest paths fs
    rw [hmap] at hL
    simpa using hL
  refine ⟨hlen, fun i hi => ?_⟩
  have hslot := batchRun_slot fuel dest paths fs i hi
  rw [hmap, getD_map_some rs i (by omega)] at hslot
  exact hslot

/-- Witness for batch_extract_ordered on a concrete two-job batch
(one success, one decode failure). -/
theorem batch_extract_ordered_witness :
    (batch_extract 6
      [Ent.dir "d" [], Ent.afile "a.zip" true 5 true [Ent.file "x.txt" true 3],
       Ent.afile "b.zip" true 5 false []]
      [["a.zip"], ["b.zip"]] ["d"]).1 = some [true, false] ∧
    ([true, false] : List Bool).length = ([["a.zip"], ["b.zip"]] :
      List Path).length ∧
    ∀ i, i < ([["a.zip"], ["b.zip"]] : List Path).length →
      some (([true, false] : List Bool).getD i false) =
        (extract_files_recursive 6
          (batchRun 6
            [Ent.dir "d" [],
             Ent.afile "a.zip" true 5 true [Ent.file "x.txt" true 3],
             Ent.afile "b.zip" true 5 false []]
            (([["a.zip"], ["b.zip"]] : List Path).take i) ["d"]).2
          (([["a.zip"], ["b.zip"]] : List Path).getD i []) ["d"]).1 :=
  ⟨rfl,
   batch_extract_ordered 6
     [Ent.dir "d" [], Ent.afile "a.zip" true 5 true [Ent.file "x.txt" true 3],
      Ent.afile "b.zip" true 5 false []]
     [["a.zip"], ["b.zip"]] ["d"] [true, false] rfl⟩

/-- Witness for move_file_appends_suffix: moving b.txt onto an
occupied a.txt beside an occupied a_1.txt lands on a_2.txt. -/
theorem move_file_appends_suffix_witness :
    lookupEnt [Ent.dir "d" [Ent.file "a.txt" true 2, Ent.file "a_1.txt" true 2],
        Ent.file "b.txt" true 3] ["b.txt"] =
      some (Ent.file "b.txt" true 3) ∧
    (Ent.file "b.txt" true 3).isDir = false ∧
    is_empty [Ent.dir "d" [Ent.file "a.txt" true 2, Ent.file "a_1.txt" true 2],
        Ent.file "b.txt" true 3] ["b.txt"] = false ∧
    (["d", "a.txt"] : Path) ≠ [] ∧
    splitextName ((["d", "a.txt"] : Path).getLastD "") = ("a", ".txt") ∧
    childrenAt [Ent.dir "d" [Ent.file "a.txt" true 2,
        Ent.file "a_1.txt" true 2], Ent.file "b.txt" true 3]
      (["d", "a.txt"] : Path).dropLast =
      some [Ent.file "a.txt" true 2, Ent.file "a_1.txt" true 2] ∧
    ∃ k fs2,
      move_file [Ent.dir "d" [Ent.file "a.txt" true 2,
          Ent.file "a_1.txt" true 2], Ent.file "b.txt" true 3]
        ["b.txt"] ["d", "a.txt"] = (true, fs2) ∧
      (∀ j, j < k →
        existsPath [Ent.dir "d" [Ent.file "a.txt" true 2,
          Ent.file "a_1.txt" true 2], Ent.file "b.txt" true 3]
          (cand ["d", "a.txt"] "a" ".txt" j) = true) ∧
      existsPath [Ent.dir "d" [Ent.file "a.txt" true 2,
          Ent.file "a_1.txt" true 2], Ent.file "b.txt" true 3]
        (cand ["d", "a.txt"] "a" ".txt" k) = false ∧
      lookupEnt fs2 (cand ["d", "a.txt"] "a" ".txt" k) =
        some ((Ent.file "b.txt" true 3).rename
          ((cand ["d", "a.txt"] "a" ".txt" k).getLastD "")) ∧
      (∀ q e2, lookupEnt [Ent.dir "d" [Ent.file "a.txt" true 2,
          Ent.file "a_1.txt" true 2], Ent.file "b.txt" true 3] q =
            some e2 → e2.isDir = false → q ≠ ["b.txt"] →
        (∀ r, q ≠ cand ["d", "a.txt"] "a" ".txt" k ++ r) →
        lookupEnt fs2 q = some e2) :=
  ⟨rfl, rfl, rfl, by decide, rfl, rfl,
   move_file_appends_suffix
     [Ent.dir "d" [Ent.file "a.txt" true 2, Ent.file "a_1.txt" true 2],
      Ent.file "b.txt" true 3]
     ["b.txt"] ["d", "a.txt"] (Ent.file "b.txt" true 3) "a" ".txt"
     [Ent.file "a.txt" true 2, Ent.file "a_1.txt" true 2]
     rfl rfl rfl (by decide) rfl rfl⟩

/-! ### Claim C10 -/

/-- FileManager.move_files on a single file whose name is already
canonical (the stem plus the lower-cased suffix is the name itself):
the computed destination equals the source, the conflict loop finds
the source occupying it, and the file is renamed base_1 ext. -/
theorem organize_renames_one (root f b e : String) (s : Nat)
    (hs : ¬ s = 0)
    (hcanon : pstem f ++ strLower (psuffix f) = f)
    (hsplit : splitextName f = (b, e)) :
    move_files [Ent.dir root [Ent.file f true s]] [root] =
      [Ent.dir root [Ent.file (b ++ "_" ++ Nat.repr 1 ++ e) true s]] := by
  have hsb : s.beq 0 = false := by
    cases hx : s.beq 0 with
    | false => rfl
    | true => exact absurd (Nat.eq_of_beq_eq_true hx) hs
  have hrec : b ++ e = f := by
    have h2 := splitextName_recombine f
    rw [hsplit] at h2
    exact h2
  have hne : ¬ (f = b ++ "_" ++ Nat.repr 1 ++ e) := by
    intro hx
    rw [← hrec] at hx
    have hd := congrArg String.data hx
    simp only [String.data_append] at hd
    have hd2 := List.append_cancel_right hd
    have hlen := congrArg List.length hd2
    simp at hlen
  have hlookf : lookupEnt [Ent.dir root [Ent.file f true s]] [root, f] =
      some (Ent.file f true s) := by
    simp [lookupEnt, Ent.name]
  have hchild : childrenAt [Ent.dir root [Ent.file f true s]] [root] =
      some [Ent.file f true s] := by
    simp [childrenAt, Ent.name]
  have hdel : delete_if_empty [Ent.dir root [Ent.file f true s]] [root, f] =
      (false, [Ent.dir root [Ent.file f true s]]) := by
    simp [delete_if_empty, hlookf, hsb]
  have hemp : is_empty [Ent.dir root [Ent.file f true s]] [root, f] = false := by
    simp [is_empty, hlookf, hsb]
  have hmk : makedirs [root] [Ent.dir root [Ent.file f true s]] =
      some [Ent.dir root [Ent.file f true s]] := by
    simp [makedirs, applyFirst, Ent.name]
  have hex0 : existsPath [Ent.dir root [Ent.file f true s]] [root, f] = true := by
    simp [existsPath, hlookf]
  have hlook1 : lookupEnt [Ent.dir root [Ent.file f true s]]
      [root, b ++ "_" ++ Nat.repr 1 ++ e] = none := by
    simp [lookupEnt, Ent.name, hne]
  have hex1 : existsPath [Ent.dir root [Ent.file f true s]]
      [root, b ++ "_" ++ Nat.repr 1 ++ e] = false := by
    simp [existsPath, hlook1]
  have hff : findFree [Ent.dir root [Ent.file f true s]] [root] b e 3 1
      [root, f] = some [root, b ++ "_" ++ Nat.repr 1 ++ e] := by
    rw [findFree, if_pos hex0, findFree, if_neg (by simp [hex1])]
    rfl
  have hrm : removePath [Ent.dir root [Ent.file f true s]] [root, f] =
      [Ent.dir root []] := by
    simp [removePath, updateAt, applyFirst, removeName, Ent.name]
  have hsm : shutilMove [Ent.dir root [Ent.file f true s]] [root, f]
      [root, b ++ "_" ++ Nat.repr 1 ++ e] =
      some [Ent.dir root [Ent.file (b ++ "_" ++ Nat.repr 1 ++ e) true s]] := by
    simp [shutilMove, hlookf, removePath, updateAt, applyFirst, removeName,
      place1, Ent.rename, Ent.name]
  have hmove : move_file [Ent.dir root [Ent.file f true s]] [root, f]
      [root, f] =
      (true, [Ent.dir root [Ent.file (b ++ "_" ++ Nat.repr 1 ++ e) true s]]) := by
    simp only [move_file, hemp, Bool.false_eq_true, if_false,
      List.dropLast_cons₂, List.dropLast_single, hmk]
    have hgl : ([root, f] : Path).getLastD "" = f := rfl
    have hcount : entsCount [Ent.dir root [Ent.file f true s]] + 1 = 3 := rfl
    simp only [hgl, hsplit, hcount, hff, hsm]
  have hfn : fileNames [Ent.file f true s] = [f] := rfl
  have hchild2 : childrenAt
      [Ent.dir root [Ent.file (b ++ "_" ++ Nat.repr 1 ++ e) true s]] [root] =
      some [Ent.file (b ++ "_" ++ Nat.repr 1 ++ e) true s] := by
    simp [childrenAt, Ent.name]
  have hpd : processDir [root] [Ent.dir root [Ent.file f true s]] [root] =
      [Ent.dir root [Ent.file (b ++ "_" ++ Nat.repr 1 ++ e) true s]] := by
    simp only [processDir, hchild, hfn, List.foldl_cons, List.foldl_nil,
      List.cons_append, List.nil_append, hdel, Bool.false_eq_true, if_false,
      hcanon, hmove, hchild2]
  have hex_root : existsPath [Ent.dir root [Ent.file f true s]] [root] =
      true := by
    simp [existsPath, lookupEnt, Ent.name]
  have hwd : walkDirsEnts [root] [Ent.file f true s] = [] := rfl
  rw [move_files, if_neg (by simp [hex_root])]
  simp only [hchild, hwd, List.foldl_cons, List.foldl_nil, hpd]

/-- C10: a non-empty file already sitting at its canonical
destination (directly under the walked root, extension already
lower-case) is not left in place by the organize pass: move_file
computes a destination equal to the source, its conflict loop sees
the source itself occupying that destination and renames the file with
a _1 suffix before the extension; a second pass renames the renamed
file again, so organize is never a no-op on its own output. -/
theorem move_files_renames_canonical (root f b e b2 e2 : String) (s : Nat)
    (hs : ¬ s = 0)
    (hcanon : pstem f ++ strLower (psuffix f) = f)
    (hsplit : splitextName f = (b, e))
    (hcanon2 : pstem (b ++ "_" ++ Nat.repr 1 ++ e) ++
      strLower (psuffix (b ++ "_" ++ Nat.repr 1 ++ e)) =
      b ++ "_" ++ Nat.repr 1 ++ e)
    (hsplit2 : splitextName (b ++ "_" ++ Nat.repr 1 ++ e) = (b2, e2)) :
    move_files [Ent.dir root [Ent.file f true s]] [root] =
      [Ent.dir root [Ent.file (b ++ "_" ++ Nat.repr 1 ++ e) true s]] ∧
    move_files (move_files [Ent.dir root [Ent.file f true s]] [root]) [root] =
      [Ent.dir root [Ent.file (b2 ++ "_" ++ Nat.repr 1 ++ e2) true s]] ∧
    move_files [Ent.dir root [Ent.file f true s]] [root] ≠
      [Ent.dir root [Ent.file f true s]] := by
  have h1 := organize_renames_one root f b e s hs hcanon hsplit
  have h2 := organize_renames_one root (b ++ "_" ++ Nat.repr 1 ++ e) b2 e2 s hs
    hcanon2 hsplit2
  have hrec : b ++ e = f := by
    have h3 := splitextName_recombine f
    rw [hsplit] at h3
    exact h3
  have hne : ¬ (f = b ++ "_" ++ Nat.repr 1 ++ e) := by
    intro hx2
    rw [← hrec] at hx2
    have hd := congrArg String.data hx2
    simp only [String.data_append] at hd
    have hd2 := List.append_cancel_right hd
    have hlen := congrArg List.length hd2
    simp at hlen
  refine ⟨h1, by rw [h1, h2], ?_⟩
  rw [h1]
  intro hx
  simp only [List.cons.injEq, Ent.dir.injEq, Ent.file.injEq, and_true,
    true_and] at hx
  exact hne hx.symm

theorem move_files_renames_canonical_witness :
    ¬ (2 : Nat) = 0 ∧
    pstem "a.txt" ++ strLower (psuffix "a.txt") = "a.txt" ∧
    splitextName "a.txt" = ("a", ".txt") ∧
    pstem ("a" ++ "_" ++ Nat.repr 1 ++ ".txt") ++
      strLower (psuffix ("a" ++ "_" ++ Nat.repr 1 ++ ".txt")) =
      "a" ++ "_" ++ Nat.repr 1 ++ ".txt" ∧
    splitextName ("a" ++ "_" ++ Nat.repr 1 ++ ".txt") = ("a_1", ".txt") ∧
    (move_files [Ent.dir "r" [Ent.file "a.txt" true 2]] ["r"] =
      [Ent.dir "r" [Ent.file ("a" ++ "_" ++ Nat.repr 1 ++ ".txt") true 2]] ∧
     move_files (move_files [Ent.dir "r" [Ent.file "a.txt" true 2]] ["r"])
        ["r"] =
      [Ent.dir "r" [Ent.file ("a_1" ++ "_" ++ Nat.repr 1 ++ ".txt") true 2]] ∧
     move_files [Ent.dir "r" [Ent.file "a.txt" true 2]] ["r"] ≠
      [Ent.dir "r" [Ent.file "a.txt" true 2]]) :=
  ⟨by decide, rfl, rfl, rfl, rfl,
   move_files_renames_canonical "r" "a.txt" "a" ".txt" "a_1" ".txt" 2
     (by decide) rfl rfl rfl rfl⟩


end Goblintools
